import Mathlib

/-!
Verification of the batch-rename grid engine of the `name-it` Figma plugin.

The definitions below are a shallow embedding of the TypeScript sources:
  * `src/ui/utils/wordDictionary.ts`  (word dictionary, series detect/continue)
  * `src/ui/utils/nameParser.ts`      (name parsing heuristics)
  * `src/ui/utils/sorting.ts`         (spatial sorting)
  * `src/ui/hooks/useBatchRename.ts`  (grid state store, history, mutations)

JavaScript semantics are modelled as follows:
  * machine numbers are `Int`/`Nat` (all quantities involved are integers;
    the only fractional computation, the sorting threshold, is evaluated
    exactly — see `getThreshold`);
  * `undefined` is `Option.none`; a statement that throws a `TypeError`
    makes the surrounding operation return `none`;
  * JS array assignment `a[i] = v` past the end extends the array; where the
    element type is `String` the created holes are represented as `""`
    (claims about such states only inspect lengths), where the element type
    is `Option _` the holes are represented as `none` (exactly JS
    `undefined`);
  * strings are ASCII in all theorems; `toLowerCase`/`toUpperCase` are
    modelled per-character.
-/

namespace NameIt

/-! ## JS primitives -/

/-- The characters matched by the `\s` class of a JS regex (common ASCII
whitespace; exotic Unicode spaces are outside the model). -/
def jsWs (c : Char) : Bool :=
  c = ' ' || c = '\t' || c = '\n' || c = '\r' || c = '\x0b' || c = '\x0c'

/-- Numeric value of a list of decimal digit characters. -/
def digitsToNat (l : List Char) : Nat :=
  l.foldl (fun a c => 10 * a + (c.toNat - 48)) 0

/-- The leading digit run of a character list, as a number; `none` when the
list does not start with a digit. -/
def leadDigits (l : List Char) : Option Nat :=
  let ds := l.takeWhile Char.isDigit
  if ds = [] then none else some (digitsToNat ds)

/-- JS `parseInt(s, 10)`: skip leading whitespace, optional sign, then the
longest digit prefix; `none` models `NaN`. -/
def parseIntJS (s : String) : Option Int :=
  match s.data.dropWhile jsWs with
  | [] => none
  | c :: r =>
    if c = '-' then (leadDigits r).map (fun n => -(n : Int))
    else if c = '+' then (leadDigits r).map (fun n => (n : Int))
    else (leadDigits (c :: r)).map (fun n => (n : Int))

/-- JS `String.prototype.padStart(n, c)` for a single pad character. -/
def padStartJS (s : String) (n : Nat) (c : Char) : String :=
  if n ≤ s.length then s else String.mk (List.replicate (n - s.length) c ++ s.data)

/-- JS `Array.prototype.join('')` on an array of strings. -/
def jsJoin (l : List String) : String :=
  String.mk (l.map String.data).flatten

/-- A run of `n` spaces. -/
def spaces (n : Nat) : String :=
  String.mk (List.replicate n ' ')

/-- JS `String.fromCharCode` (applies `ToUint16`). -/
def fromCharCodeJS (n : Int) : Char :=
  Char.ofNat (n % 65536).toNat

/-! ## Series detection (`wordDictionary.ts`, `detectSeries` et al.) -/

inductive SeriesType where
  | constant
  | numeric
  | alphabetic
  | mixed
deriving DecidableEq, Repr

structure SeriesInfo where
  type : SeriesType
  values : List String
  step : Int
  /-- the `prefix?` field of the TS interface -/
  prefixStr : Option String := none
  /-- the `suffix?` field of the TS interface -/
  suffixStr : Option String := none
  padLength : Option Nat := none
deriving DecidableEq, Repr

/-- Splits a string (as a char list) around its last digit run, like taking
the last match of `matchAll(/(\d+)/g)` together with the text before and
after it; `none` when there is no digit. -/
def lastDigitRun (l : List Char) : Option (List Char × List Char × List Char) :=
  let rev := l.reverse
  let sufR := rev.takeWhile (fun c => !c.isDigit)
  let rest := rev.dropWhile (fun c => !c.isDigit)
  let runR := rest.takeWhile Char.isDigit
  let preR := rest.dropWhile Char.isDigit
  if runR = [] then none else some (preR.reverse, runR.reverse, sufR.reverse)

/-- One value parsed by `tryMixedSeries`: numeric value and literal width of
the last digit run, and the surrounding text. -/
structure MixedParse where
  num : Int
  padLen : Nat
  preStr : String
  sufStr : String
deriving DecidableEq, Repr

/-- Successive differences, `steps[i] = nums[i+1] - nums[i]`. -/
def stepsOf (nums : List Int) : List Int :=
  List.zipWith (fun a b => b - a) nums nums.tail

/-- The shared `steps.length > 0 && steps.every(s => s === steps[0])`
check of the three detectors, returning the common step on success. -/
def stepsConstant (steps : List Int) : Option Int :=
  match steps with
  | [] => none
  | d :: ds => if ds.all (· = d) then some d else none

/-- The per-value parse of `tryMixedSeries`: last digit run as number and
literal width, plus the text before and after it. -/
def parseMixedValue (v : String) : Option MixedParse :=
  (lastDigitRun v.data).map (fun t =>
    { num := (digitsToNat t.2.1 : Int), padLen := t.2.1.length,
      preStr := String.mk t.1, sufStr := String.mk t.2.2 })

/-- `tryMixedSeries` from `wordDictionary.ts`.  (The empty list is
unreachable from `detectSeries`, which calls this only with two or more
values; JS would throw there, modelled as `none`.) -/
def tryMixedSeries (values : List String) : Option SeriesInfo :=
  match values.mapM parseMixedValue with
  | none => none
  | some [] => none
  | some (p0 :: rest) =>
    if rest.all (fun p => p.preStr = p0.preStr && p.sufStr = p0.sufStr) then
      match stepsConstant (stepsOf ((p0 :: rest).map (·.num))) with
      | none => none
      | some d =>
        some { type := .mixed, values := values, step := d,
               prefixStr := some p0.preStr, suffixStr := some p0.sufStr,
               padLength := some p0.padLen }
    else none

/-- `tryNumericSeries` from `wordDictionary.ts`: every value must match
`/^(\d+)$/` exactly. -/
def tryNumericSeries (values : List String) : Option SeriesInfo :=
  match values.mapM (fun v =>
      if v.data ≠ [] ∧ v.data.all Char.isDigit
      then some (digitsToNat v.data : Int) else none) with
  | none => none
  | some nums =>
    match stepsConstant (stepsOf nums) with
    | none => none
    | some d => some { type := .numeric, values := values, step := d }

/-- `tryAlphabeticSeries` from `wordDictionary.ts`: every value must be a
single ASCII letter. -/
def tryAlphabeticSeries (values : List String) : Option SeriesInfo :=
  match values.mapM (fun v =>
      match v.data with
      | [c] => if c.isUpper || c.isLower then some (c.toNat : Int) else none
      | _ => none) with
  | none => none
  | some codes =>
    match stepsConstant (stepsOf codes) with
    | none => none
    | some d => some { type := .alphabetic, values := values, step := d }

/-- `detectSeries` from `wordDictionary.ts`. -/
def detectSeries (values : List String) : SeriesInfo :=
  match values with
  | [] => { type := .constant, values := [], step := 0 }
  | [v] => { type := .constant, values := [v], step := 0 }
  | _ =>
    match tryMixedSeries values with
    | some r => r
    | none =>
      match tryNumericSeries values with
      | some r => r
      | none =>
        match tryAlphabeticSeries values with
        | some r => r
        | none => { type := .constant, values := values, step := 0 }

/-- JS `s.toUpperCase()` (ASCII model). -/
def jsToUpperStr (s : String) : String :=
  String.mk (s.data.map Char.toUpper)

/-- The loop of the `alphabetic` branch of `continueSeries`: repeatedly add
`step` to the running char code, applying the two sequential wrap checks of
the source. -/
def alphaRun (isUp : Bool) (st : Int) (code : Int) : Nat → List (Option String)
  | 0 => []
  | n + 1 =>
    let a := code + st
    let b :=
      if isUp then
        let x := if a > 90 then 65 + (a - 91) else a
        if x < 65 then 90 - (64 - x) else x
      else
        let x := if a > 122 then 97 + (a - 123) else a
        if x < 97 then 122 - (96 - x) else x
    some (String.mk [fromCharCodeJS b]) :: alphaRun isUp st b n

/-- `continueSeries` from `wordDictionary.ts`.  The result is `none` when
the JS code throws a `TypeError` (indexing into an empty `values`); list
elements are `none` where the JS code pushes `undefined`. -/
def continueSeries (series : SeriesInfo) (count : Nat) : Option (List (Option String)) :=
  match series.type with
  | .constant =>
    -- `series.values[i % Math.max(1, series.values.length)]`
    some ((List.range count).map fun i =>
      series.values.get? (i % max 1 series.values.length))
  | .numeric =>
    match series.values.getLast? with
    | none => none  -- `lastValue.length` on `undefined` throws
    | some lastValue =>
      let padLength := lastValue.length
      some ((List.range count).map fun i =>
        match parseIntJS lastValue with
        | none => some (padStartJS "NaN" padLength '0')  -- `String(NaN)`
        | some lastNum =>
          some (padStartJS (toString (lastNum + series.step * ((i : Int) + 1))) padLength '0'))
  | .alphabetic =>
    match series.values.getLast? with
    | none => none  -- `lastChar.toUpperCase()` on `undefined` throws
    | some lastChar =>
      match lastChar.data.head? with
      | none =>
        -- `''.charCodeAt(0)` is `NaN`: wraps never fire, `fromCharCode(NaN)` is `'\x00'`
        some (List.replicate count (some (String.mk ['\x00'])))
      | some c0 =>
        let isUp := jsToUpperStr lastChar = lastChar
        some (alphaRun isUp series.step (c0.toNat : Int) count)
  | .mixed =>
    match series.values.getLast? with
    | none => none  -- `matchAll` on `undefined` throws
    | some lastValue =>
      match lastDigitRun lastValue.data with
      | none => none  -- `lastMatch[1]` on `undefined` throws
      | some t =>
        let lastNum : Int := digitsToNat t.2.1
        -- `series.padLength || lastMatch[1].length` (`0` is falsy)
        let padLength :=
          match series.padLength with
          | some n => if n = 0 then t.2.1.length else n
          | none => t.2.1.length
        let pre := series.prefixStr.getD ""
        let suf := series.suffixStr.getD ""
        some ((List.range count).map fun i =>
          some (pre ++ padStartJS (toString (max 0 (lastNum + series.step * ((i : Int) + 1)))) padLength '0' ++ suf))

/-! ## Name parser (`nameParser.ts`) -/

/-- `COMMON_WORDS` from `wordDictionary.ts` (membership in the JS `Set`). -/
def COMMON_WORDS : List String :=
  ["icon", "button", "btn", "input", "text", "label", "card", "modal",
   "dialog", "menu", "dropdown", "select", "checkbox", "radio", "toggle",
   "switch", "slider", "progress", "spinner", "loader", "avatar", "badge",
   "chip", "tag", "tooltip", "popover", "toast", "alert", "banner",
   "header", "footer", "nav", "sidebar", "tab", "panel", "accordion",
   "list", "item", "row", "col", "grid", "container", "wrapper", "box",
   "frame", "group", "stack", "divider", "separator", "image", "img",
   "link", "anchor", "form", "field", "table", "cell", "section", "hover",
   "active", "focus", "disabled", "selected", "checked", "pressed",
   "loading", "error", "success", "warning", "info", "primary",
   "secondary", "tertiary", "default", "outline", "ghost", "filled",
   "empty", "open", "closed", "expanded", "collapsed", "xs", "sm", "md",
   "lg", "xl", "xxl", "small", "medium", "large", "tiny", "mini", "big",
   "huge", "bg", "background", "fg", "foreground", "fill", "stroke",
   "border", "color", "dark", "light", "white", "black", "gray", "grey",
   "red", "blue", "green", "yellow", "orange", "purple", "pink", "cyan",
   "teal", "indigo", "violet", "brand", "accent", "top", "bottom", "left",
   "right", "center", "start", "end", "leading", "trailing", "inner",
   "outer", "middle", "horizontal", "vertical", "north", "south", "east",
   "west", "add", "edit", "delete", "remove", "save", "cancel", "close",
   "show", "hide", "expand", "collapse", "copy", "paste", "search",
   "filter", "sort", "refresh", "sync", "upload", "download", "submit",
   "reset", "clear", "undo", "redo", "back", "next", "prev", "main", "sub",
   "base", "root", "app", "page", "view", "screen", "component", "element",
   "widget", "control", "action", "content", "title", "subtitle",
   "description", "body", "name", "value"]

structure ParsedName where
  parts : List String
deriving DecidableEq, Repr

/-- The five split characters of the loop in `trySeparatorParsing`:
underscore, hyphen, slash, period, space. -/
def isSepChar (c : Char) : Bool :=
  c = '_' || c = '-' || c = '/' || c = '.' || c = ' '

/-- The test regex `/[_\-\/\.\s]/` of `trySeparatorParsing` (any split
character or whitespace). -/
def sepTest (c : Char) : Bool :=
  isSepChar c || jsWs c

/-- The character loop of `trySeparatorParsing`: `cur` is the pending
`current` accumulator. -/
def sepLoop (cur : List Char) : List Char → List String
  | [] => if cur = [] then [] else [String.mk cur]
  | c :: cs =>
    if isSepChar c then
      (if cur = [] then [String.mk [c]] else [String.mk cur, String.mk [c]]) ++ sepLoop [] cs
    else
      sepLoop (cur ++ [c]) cs

/-- `trySeparatorParsing` from `nameParser.ts`. -/
def trySeparatorParsing (name : String) : Option (List String) :=
  if name.data.any sepTest then
    if (sepLoop [] name.data).length > 1 then some (sepLoop [] name.data) else none
  else none

/-- Splitting a character list into groups, starting a new group whenever
`brk prev cur` holds between adjacent characters; every group is returned
in order and no group is empty.  This is the common shape of the JS
zero-width-lookaround `split` calls of the parser. -/
def groupLoop (brk : Char → Char → Bool) (cur : List Char) (prev : Char) :
    List Char → List (List Char)
  | [] => [cur]
  | c :: cs =>
    if brk prev c then cur :: groupLoop brk [c] c cs
    else groupLoop brk (cur ++ [c]) c cs

def groupSplit (brk : Char → Char → Bool) : List Char → List (List Char)
  | [] => []
  | c :: cs => groupLoop brk [c] c cs

/-- Whether `brk` holds at some adjacent pair of `prev :: rest` (proof
vocabulary for the group-splitting lemmas). -/
def AdjBrk (brk : Char → Char → Bool) : Char → List Char → Bool
  | _, [] => false
  | p, c :: cs => brk p c || AdjBrk brk c cs

/-- `/[a-z][A-Z]/.test(name)`: some lowercase letter immediately followed
by an uppercase letter. -/
def hasLowerUpper : List Char → Bool
  | a :: b :: t => (a.isLower && b.isUpper) || hasLowerUpper (b :: t)
  | _ => false

/-- The boundary of `name.split(/(?=[A-Z])/)`: a new token starts at every
uppercase letter (other than at position 0). -/
def camelBrk (_prev c : Char) : Bool := c.isUpper

/-- `tryCamelCaseParsing` from `nameParser.ts`. -/
def tryCamelCaseParsing (name : String) : Option (List String) :=
  if hasLowerUpper name.data then
    if ((groupSplit camelBrk name.data).map String.mk).length > 1 then
      some ((groupSplit camelBrk name.data).map String.mk)
    else none
  else none

/-- `/(\d[a-zA-Z]|[a-zA-Z]\d)/.test(name)`: a digit adjacent to a letter. -/
def hasDigitLetterAdj : List Char → Bool
  | a :: b :: t =>
    (a.isDigit && (b.isUpper || b.isLower)) || ((a.isUpper || a.isLower) && b.isDigit) ||
      hasDigitLetterAdj (b :: t)
  | _ => false

/-- The boundary of `name.split(/(?<=\D)(?=\d)|(?<=\d)(?=\D)/)`: a new
token starts at every digit/non-digit transition. -/
def digitBrk (prev c : Char) : Bool := prev.isDigit != c.isDigit

/-- `tryNumberBoundaryParsing` from `nameParser.ts`. -/
def tryNumberBoundaryParsing (name : String) : Option (List String) :=
  if hasDigitLetterAdj name.data then
    if ((groupSplit digitBrk name.data).map String.mk).length > 1 then
      some ((groupSplit digitBrk name.data).map String.mk)
    else none
  else none

/-- JS `s.toLowerCase()` (ASCII model, applied per character). -/
def jsToLower (l : List Char) : List Char := l.map Char.toLower

/-- The inner `for (let len = …; len >= 2; len--)` search of
`tryDictionaryParsing`: the longest prefix of length `k, k-1, …, 2` of
`rem` whose lowercasing is in the dictionary. -/
def findWordFrom (rem : List Char) : Nat → Option Nat
  | 0 => none
  | 1 => none
  | k + 2 =>
    if COMMON_WORDS.contains (String.mk (jsToLower (rem.take (k + 2)))) then some (k + 2)
    else findWordFrom rem (k + 1)

/-- Longest dictionary prefix length, starting at `min(rem.length, 12)`. -/
def findWordLen (rem : List Char) : Option Nat :=
  findWordFrom rem (min rem.length 12)

/-- The no-dictionary-match step of the `tryDictionaryParsing` loop:
`parts.length > 0 && parts[parts.length - 1].length < 3` appends the
character to the last part, otherwise a new single-character part starts
(`parts[parts.length - 1]` is `getLastD`; the `""` default is never used
since the condition requires a non-empty list). -/
def dictConsume (parts : List String) (c : Char) : List String :=
  if 0 < parts.length ∧ (parts.getLastD "").length < 3 then
    parts.dropLast ++ [parts.getLastD "" ++ String.mk [c]]
  else parts ++ [String.mk [c]]

/-- The `while (lowerRemaining.length > 0)` loop of `tryDictionaryParsing`.
`fuel` is an upper bound on the number of iterations (each iteration
consumes at least one character, so `rem.length` is enough, see
`tryDictionaryParsing`); it exists only to make the recursion structural. -/
def dictLoop (fuel : Nat) (rem : List Char) (parts : List String) : List String :=
  match fuel with
  | 0 => parts
  | fuel + 1 =>
    match rem with
    | [] => parts
    | c :: rest =>
      match findWordLen rem with
      | some len => dictLoop fuel (rem.drop len) (parts ++ [String.mk (rem.take len)])
      | none => dictLoop fuel rest (dictConsume parts c)

/-- One step of the loop of `mergeSingleChars`, with the source's boolean
conditions (`result[result.length - 1]` is `getLastD`, defaulted where the
condition already requires non-emptiness). -/
def mergeStep (result : List String) (part : String) : List String :=
  if part.length = 1 ∧ 0 < result.length then
    result.dropLast ++ [result.getLastD "" ++ part]
  else if part.length = 1 ∧ result.length = 0 then
    result ++ [part]
  else
    if 0 < result.length ∧ (result.getLastD "").length = 1 then
      result.dropLast ++ [result.getLastD "" ++ part]
    else result ++ [part]

/-- `mergeSingleChars` from `nameParser.ts`. -/
def mergeSingleChars (parts : List String) : List String :=
  parts.foldl mergeStep []

/-- `tryDictionaryParsing` from `nameParser.ts`. -/
def tryDictionaryParsing (name : String) : Option (List String) :=
  if (mergeSingleChars (dictLoop name.data.length name.data [])).length > 1 then
    some (mergeSingleChars (dictLoop name.data.length name.data []))
  else none

/-- `parseLayerName` from `nameParser.ts`: the four strategies in order
(each helper already returns `none` unless it produced more than one part,
exactly as in the source, whose outer `.parts.length > 1` re-check is
therefore equivalent to `isSome`), then the single-part fallback. -/
def parseLayerName (name : String) : ParsedName :=
  match trySeparatorParsing name with
  | some parts => { parts := parts }
  | none =>
    match tryCamelCaseParsing name with
    | some parts => { parts := parts }
    | none =>
      match tryNumberBoundaryParsing name with
      | some parts => { parts := parts }
      | none =>
        match tryDictionaryParsing name with
        | some parts => { parts := parts }
        | none => { parts := [name] }

/-- `getMaxColumns` from `nameParser.ts`:
`Math.max(1, ...parsedNames.map(p => p.parts.length))`. -/
def getMaxColumns (parsedNames : List ParsedName) : Nat :=
  parsedNames.foldl (fun m p => max m p.parts.length) 1

/-- `padParts` from `nameParser.ts`: pad with trailing `""` up to
`columnCount` (never truncates). -/
def padParts (parts : List String) (columnCount : Nat) : List String :=
  parts ++ List.replicate (columnCount - parts.length) ""

/-! ## Spatial sorter (`sorting.ts`) -/

/-- Layer kinds are string literals in the source (`'frame' | 'text' | …`);
their content is never inspected by the grid engine. -/
abbrev LayerType := String

inductive SortDirection where
  | leftToRight
  | rightToLeft
  | topToBottom
  | bottomToTop
  | readingOrder
deriving DecidableEq, Repr

structure LayerInfo where
  id : String
  name : String
  x : Int
  y : Int
  type : LayerType
deriving DecidableEq, Repr

/-- `getThreshold` from `sorting.ts`.  For fewer than 2 layers it is `20`;
otherwise `avgHeight = (Σ 50)/n = 50` exactly (the sum and quotient are
exact in floating point for realistic layer counts), so the threshold is
`Math.max(20, 25) = 25`. -/
def getThreshold (n : Nat) : Int :=
  if n < 2 then 20 else 25

/-- A JS sort comparator value: negative, zero or positive. -/
abbrev Cmp := Int

/-- JS `a || b` on comparator numbers: `b` when `a` is `0`. -/
def cmpOr (a b : Cmp) : Cmp := if a = 0 then b else a

/-- The comparator passed to `sorted.sort` for each direction
(`Math.floor(x / threshold)` is exact flooring division). -/
def layerCmp (threshold : Int) : SortDirection → LayerInfo → LayerInfo → Cmp
  | .leftToRight, a, b => cmpOr (a.x - b.x) (a.y - b.y)
  | .rightToLeft, a, b => cmpOr (b.x - a.x) (a.y - b.y)
  | .topToBottom, a, b =>
    let colA := Int.fdiv a.x threshold
    let colB := Int.fdiv b.x threshold
    if colA ≠ colB then colA - colB else a.y - b.y
  | .bottomToTop, a, b => cmpOr (b.y - a.y) (a.x - b.x)
  | .readingOrder, a, b =>
    let rowA := Int.fdiv a.y threshold
    let rowB := Int.fdiv b.y threshold
    if rowA ≠ rowB then rowA - rowB else a.x - b.x

/-- Stable insertion of `a` into `l`: `a` goes before the first element it
compares `≤ 0` against. -/
def insertCmp (cmp : LayerInfo → LayerInfo → Cmp) (a : LayerInfo) :
    List LayerInfo → List LayerInfo
  | [] => [a]
  | b :: t => if cmp a b ≤ 0 then a :: b :: t else b :: insertCmp cmp a t

/-- A stable comparator sort, modelling `Array.prototype.sort` (stable per
the ECMAScript specification). -/
def sortCmp (cmp : LayerInfo → LayerInfo → Cmp) : List LayerInfo → List LayerInfo
  | [] => []
  | a :: t => insertCmp cmp a (sortCmp cmp t)

/-- `sortLayersByDirection` from `sorting.ts`. -/
def sortLayersByDirection (layers : List LayerInfo) (direction : SortDirection) :
    List LayerInfo :=
  sortCmp (layerCmp (getThreshold layers.length) direction) layers

/-! ## Grid state store (`useBatchRename.ts`) -/

structure ColumnDef where
  id : String
  header : String
deriving DecidableEq, Repr

structure GridState where
  columns : List ColumnDef
  rows : List (List String)
  layerIds : List String
  layerTypes : List LayerType
  sortDirection : SortDirection
deriving DecidableEq, Repr

/-- The full store: the React state plus the two history refs and the
module-level `columnIdCounter` (threaded explicitly instead of being a
process-wide mutable). -/
structure Store where
  grid : GridState
  history : List GridState
  future : List GridState
  cnt : Nat
deriving DecidableEq, Repr

/-- Modelled from the spec: the source imports `getColumnName` from
`src/ui/utils/columnNames.ts`, which is not in the repository snapshot.
Per §4.4 of the spec it is the deterministic spreadsheet-style scheme
`A, B, …, Z, AA, AB, …` (bijective base 26, `0 ↦ "A"`).  The `fuel`
argument (at most one recursive step per 26-fold of `n`, so `n` itself is
plenty) only makes the recursion structural. -/
def getColumnNameFuel : Nat → Nat → String
  | 0, n => String.mk [Char.ofNat (65 + n % 26)]
  | fuel + 1, n =>
    if n < 26 then String.mk [Char.ofNat (65 + n)]
    else getColumnNameFuel fuel (n / 26 - 1) ++ String.mk [Char.ofNat (65 + n % 26)]

def getColumnName (n : Nat) : String :=
  getColumnNameFuel n n

/-- `generateColumnId`, on the explicit counter. -/
def generateColumnId (cnt : Nat) : String × Nat :=
  ("col_" ++ toString (cnt + 1), cnt + 1)

def MAX_HISTORY : Nat := 50

/-- `saveToHistory`:
`[...historyRef.current.slice(-MAX_HISTORY + 1), currentState]` (keep the
last 49 entries, append the pre-mutation state), and the caller clears the
redo stack. -/
def pushHistory (h : List GridState) (g : GridState) : List GridState :=
  h.drop (h.length - (MAX_HISTORY - 1)) ++ [g]

/-- JS `row[col] = value` on an array of strings: in range it replaces, past
the end it extends (holes represented as `""`; only lengths of such rows
are inspected by any theorem below). -/
def jsSetStr (row : List String) (col : Nat) (v : String) : List String :=
  if col < row.length then row.set col v
  else row ++ List.replicate (col - row.length) "" ++ [v]

/-- `setCellValue` (store level).  `none` models the `TypeError` thrown by
`[...newRows[row]]` when `row` is out of range. -/
def setCellStore (row col : Nat) (v : String) (s : Store) : Option Store :=
  match s.grid.rows.get? row with
  | none => none
  | some r =>
    some { s with
      grid := { s.grid with rows := s.grid.rows.set row (jsSetStr r col v) },
      history := pushHistory s.history s.grid,
      future := [] }

/-- `setColumnHeader` (store level).  `none` models the out-of-range case
(JS would extend the column list with an id-less object, which `GridState`
cannot represent). -/
def setHeaderStore (colIndex : Nat) (header : String) (s : Store) : Option Store :=
  match s.grid.columns.get? colIndex with
  | none => none
  | some c =>
    some { s with
      grid := { s.grid with columns := s.grid.columns.set colIndex { c with header := header } },
      history := pushHistory s.history s.grid,
      future := [] }

/-- The index actually used by `splice(i, 0, x)`: negative indices count
from the end (clamped at 0), positive ones are clamped at the length. -/
def spliceIndex (i : Int) (len : Nat) : Nat :=
  if i < 0 then ((len : Int) + i).toNat else min i.toNat len

/-- `l.splice(i, 0, a)` as a pure function. -/
def spliceInsert (l : List α) (i : Int) (a : α) : List α :=
  let k := spliceIndex i l.length
  l.take k ++ [a] ++ l.drop k

/-- `addColumn` (store level): a new column with the next generated id and
the header for the current column count, inserted after `afterIndex` in the
column list and as `""` in every row. -/
def addColumnStore (afterIndex : Int) (s : Store) : Store :=
  let idc := generateColumnId s.cnt
  { grid := { s.grid with
      columns := spliceInsert s.grid.columns (afterIndex + 1)
        { id := idc.1, header := getColumnName s.grid.columns.length },
      rows := s.grid.rows.map (fun row => spliceInsert row (afterIndex + 1) "") },
    history := pushHistory s.history s.grid,
    future := [],
    cnt := idc.2 }

/-- `deleteColumn` (store level): refuses (returns the state unchanged,
without touching history) when at most one column exists; otherwise removes
index `colIndex` from the column list and from every row
(`filter((_, i) => i !== colIndex)`, i.e. `List.eraseIdx`). -/
def deleteColumnStore (colIndex : Nat) (s : Store) : Store :=
  if s.grid.columns.length ≤ 1 then s
  else
    { s with
      grid := { s.grid with
        columns := s.grid.columns.eraseIdx colIndex,
        rows := s.grid.rows.map (fun row => row.eraseIdx colIndex) },
      history := pushHistory s.history s.grid,
      future := [] }

/-- `setSortDirection` (no history event). -/
def setSortDirectionStore (direction : SortDirection) (s : Store) : Store :=
  { s with grid := { s.grid with sortDirection := direction } }

/-- `fillCells` (store level): one history entry, each write guarded by
`if (newRows[row])` (rows out of range are skipped). -/
def fillCellsStore (fills : List (Nat × Nat × String)) (s : Store) : Store :=
  { s with
    grid := { s.grid with
      rows := fills.foldl (fun rs f =>
        match rs.get? f.1 with
        | none => rs
        | some row => rs.set f.1 (jsSetStr row f.2.1 f.2.2)) s.grid.rows },
    history := pushHistory s.history s.grid,
    future := [] }

/-- `undo`: no-op on an empty undo stack, otherwise pop its top into the
current state and push the current state onto the redo stack. -/
def undoStore (s : Store) : Store :=
  match s.history.getLast? with
  | none => s
  | some g =>
    { s with grid := g, history := s.history.dropLast, future := s.grid :: s.future }

/-- `redo`: the mirror of `undo`. -/
def redoStore (s : Store) : Store :=
  match s.future with
  | [] => s
  | g :: rest =>
    { s with grid := g, history := s.history ++ [s.grid], future := rest }

/-- The last index at which `x` occurs, `none` when absent: the result of
looking `x` up in the `Map` that `reorderByDirection` builds with
`forEach`+`set` (a later binding overwrites an earlier one). -/
def lastIdxOf : List String → String → Option Nat
  | [], _ => none
  | y :: t, x =>
    match lastIdxOf t x with
    | some j => some (j + 1)
    | none => if y = x then some 0 else none

/-- JS `a[i] = v` on an array whose elements may be `undefined` (`none`):
in range it replaces, past the end it extends with holes (`none`). -/
def jsSetOpt (l : List (Option α)) (i : Nat) (v : Option α) : List (Option α) :=
  if i < l.length then l.set i v
  else l ++ List.replicate (i - l.length) none ++ [v]

/-- The write loop of `reorderByDirection` over one of the three target
arrays: for each `(oldIndex, id)` whose id is in the map, write `vals` at
`oldIndex` into slot `newOrderMap.get(id)` of an array that starts as
`new Array(n)` (all holes). -/
def reorderScatter (idxOf : String → Option Nat) (ids : List String)
    (vals : Nat → Option α) (n : Nat) : List (Option α) :=
  ids.enum.foldl (fun acc p =>
    match idxOf p.2 with
    | none => acc
    | some ni => jsSetOpt acc ni (vals p.1)) (List.replicate n none)

/-- Sequential writes `(index, value)` into an array (proof vocabulary:
`reorderScatter` is this over the write list its loop actually performs,
see `reorderScatter_eq`). -/
def scatterWrites (ws : List (Nat × Option α)) (dest : List (Option α)) :
    List (Option α) :=
  ws.foldl (fun acc w => jsSetOpt acc w.1 w.2) dest

/-- An array with no `undefined` entry, as a plain list. -/
def unopt : List (Option α) → Option (List α)
  | [] => some []
  | none :: _ => none
  | some a :: t => (unopt t).map (a :: ·)

/-- `reorderByDirection` (store level): sort the given layers, then permute
rows/layerIds/layerTypes by layer identity; no history event.  The result
is `none` when the rebuilt arrays would contain `undefined` entries (a
layer id of the current state missing from the given layer list, or
clobbered duplicate ids) — such a state is outside the `GridState` model. -/
def reorderStore (layers : List LayerInfo) (direction : SortDirection) (s : Store) :
    Option Store :=
  let sorted := sortLayersByDirection layers direction
  let idxOf := fun id => lastIdxOf (sorted.map (·.id)) id
  let newRows := reorderScatter idxOf s.grid.layerIds (s.grid.rows.get? ·) s.grid.rows.length
  let newIds := reorderScatter idxOf s.grid.layerIds (s.grid.layerIds.get? ·) s.grid.layerIds.length
  let newTypes := reorderScatter idxOf s.grid.layerIds (s.grid.layerTypes.get? ·) s.grid.layerTypes.length
  match unopt newRows, unopt newIds, unopt newTypes with
  | some rows, some ids, some types =>
    some { s with grid := { s.grid with
      rows := rows, layerIds := ids, layerTypes := types, sortDirection := direction } }
  | _, _, _ => none

/-- `initializeFromLayers` (store level): sort, parse every name, one extra
blank trailing column, pad every row; replaces the grid without touching
history or the redo stack. -/
def initStore (layers : List LayerInfo) (direction : Option SortDirection) (s : Store) :
    Store :=
  let dir := direction.getD s.grid.sortDirection
  let sorted := sortLayersByDirection layers dir
  let parsedNames := sorted.map (fun l => parseLayerName l.name)
  let columnCount := getMaxColumns parsedNames
  let totalColumns := columnCount + 1
  let cols := (List.range totalColumns).map (fun i =>
    { id := "col_" ++ toString (s.cnt + i + 1), header := getColumnName i : ColumnDef })
  { grid :=
    { columns := cols,
      rows := parsedNames.map (fun p => padParts p.parts columnCount ++ [""]),
      layerIds := sorted.map (·.id),
      layerTypes := sorted.map (·.type),
      sortDirection := dir },
    history := s.history,
    future := s.future,
    cnt := s.cnt + totalColumns }

/-- One cell rendered for preview/rename: an empty cell becomes a space. -/
def renderCell (cell : String) : String :=
  if cell = "" then " " else cell

/-- The name composed from one row
(`row.map(cell => cell === '' ? ' ' : cell).join('')`). -/
def composeName (row : List String) : String :=
  jsJoin (row.map renderCell)

/-- The sequential loop of `getRenames`: `layerIds.map((nodeId, index) =>
({nodeId, newName: rows[index]…}))`; `none` models the `TypeError` when
some `rows[index]` is `undefined`. -/
def renamesGo (rows : List (List String)) (i : Nat) :
    List String → Option (List (String × String))
  | [] => some []
  | nodeId :: t =>
    match rows.get? i with
    | none => none
    | some row => (renamesGo rows (i + 1) t).map ((nodeId, composeName row) :: ·)

/-- `getRenames` as `(nodeId, newName)` pairs. -/
def getRenames (g : GridState) : Option (List (String × String)) :=
  renamesGo g.rows 0 g.layerIds

/-- The initial React state of `useBatchRename` (one generated column with
header `getColumnName(0)`). -/
def initialStore : Store :=
  { grid :=
    { columns := [{ id := "col_1", header := getColumnName 0 }],
      rows := [], layerIds := [], layerTypes := [],
      sortDirection := .readingOrder },
    history := [], future := [], cnt := 1 }

/-! ## Operation alphabets used by the claims -/

/-- The mutating grid operations of claim C4 (all the operations that push
an undo entry). -/
inductive MutOp where
  | setCell (row col : Nat) (v : String)
  | setHeader (colIndex : Nat) (header : String)
  | addCol (afterIndex : Int)
  | delCol (colIndex : Nat)
  | fill (fills : List (Nat × Nat × String))
deriving DecidableEq, Repr

def applyMut : MutOp → Store → Option Store
  | .setCell r c v, s => setCellStore r c v s
  | .setHeader i h, s => setHeaderStore i h s
  | .addCol i, s => some (addColumnStore i s)
  | .delCol i, s => some (deleteColumnStore i s)
  | .fill fs, s => some (fillCellsStore fs s)

/-- Preconditions under which `MutOp`s run without a modelled throw and
actually record history (`delCol` needs at least two columns to not be a
silent no-op). -/
def ValidMut : MutOp → Store → Prop
  | .setCell r _ _, s => r < s.grid.rows.length
  | .setHeader i _, s => i < s.grid.columns.length
  | .addCol _, _ => True
  | .delCol _, s => 2 ≤ s.grid.columns.length
  | .fill _, _ => True

instance : ∀ (op : MutOp) (s : Store), Decidable (ValidMut op s) := by
  intro op s
  cases op <;> simp only [ValidMut] <;> infer_instance

/-- Every public operation of the store (claim C9 quantifies over arbitrary
operation sequences). -/
inductive StoreOp where
  | mutOp (op : MutOp)
  | undoOp
  | redoOp
  | sortDir (direction : SortDirection)
  | reorder (layers : List LayerInfo) (direction : SortDirection)
  | initLayers (layers : List LayerInfo) (direction : Option SortDirection)
deriving Repr

def applyStoreOp : StoreOp → Store → Option Store
  | .mutOp op, s => applyMut op s
  | .undoOp, s => some (undoStore s)
  | .redoOp, s => some (redoStore s)
  | .sortDir d, s => some (setSortDirectionStore d s)
  | .reorder ls d, s => reorderStore ls d s
  | .initLayers ls d, s => some (initStore ls d s)

/-- The grid-level operations of claim C5, and their shape-relevant
effects. -/
inductive GridOp where
  | setCell (row col : Nat) (v : String)
  | addCol (afterIndex : Int)
  | delCol (colIndex : Nat)
deriving DecidableEq, Repr

def applyGridOp : GridOp → Store → Option Store
  | .setCell r c v, s => setCellStore r c v s
  | .addCol i, s => some (addColumnStore i s)
  | .delCol i, s => some (deleteColumnStore i s)

/-- Sequential application; a modelled throw aborts the sequence. -/
def applyGridOps (ops : List GridOp) (s : Store) : Option Store :=
  ops.foldlM (fun st op => applyGridOp op st) s

/-- In-range indices for a C5 operation sequence. -/
def ValidGridOp : GridOp → Store → Prop
  | .setCell r c _, s => r < s.grid.rows.length ∧ c < s.grid.columns.length
  | .addCol _, _ => True
  | .delCol _, _ => True

instance : ∀ (op : GridOp) (s : Store), Decidable (ValidGridOp op s) := by
  intro op s
  cases op <;> simp only [ValidGridOp] <;> infer_instance

/-- Validity of every step of a sequence, at the state where it runs. -/
def validGridOps : List GridOp → Store → Bool
  | [], _ => true
  | op :: t, s =>
    decide (ValidGridOp op s) &&
      (match applyGridOp op s with
       | none => true
       | some s' => validGridOps t s')

/-- The grid shape invariant of the spec:
`∀ row: row.length == columns.length` and `rows.length == layerIds.length`. -/
def GridInv (g : GridState) : Prop :=
  (∀ row ∈ g.rows, row.length = g.columns.length) ∧
    g.rows.length = g.layerIds.length

instance : ∀ g, Decidable (GridInv g) := fun g => by
  unfold GridInv; infer_instance

/-- "At least one column exists", everywhere in the store (current grid and
every history/future snapshot). -/
def OneCol (s : Store) : Prop :=
  1 ≤ s.grid.columns.length ∧
    (∀ g ∈ s.history, 1 ≤ g.columns.length) ∧
    (∀ g ∈ s.future, 1 ≤ g.columns.length)

instance : ∀ s, Decidable (OneCol s) := fun s => by
  unfold OneCol; infer_instance

/-! ## Concrete fixtures for witnesses and counterexamples -/

def layerA : LayerInfo := { id := "1", name := "a", x := 0, y := 0, type := "frame" }

def layerIcon : LayerInfo := { id := "1", name := "icon", x := 0, y := 0, type := "frame" }

def layerBtn1 : LayerInfo :=
  { id := "1", name := "btn_primary_hover", x := 0, y := 0, type := "frame" }

def layerBtn2 : LayerInfo :=
  { id := "2", name := "btn_secondary_hover", x := 0, y := 40, type := "frame" }

/-- A freshly initialized store over the single layer named `"a"`: two
columns (`A`, `B`), one row `["a", ""]`. -/
def storeA : Store := initStore [layerA] (some .readingOrder) initialStore

/-- `storeA` after deleting its second column: exactly one column, one
history entry. -/
def storeA1 : Store := deleteColumnStore 0 storeA

/-- `storeA` after `setCellValue(0, 0, "x")`. -/
def storeAx : Store := (applyMut (.setCell 0 0 "x") storeA).getD initialStore

/-- A freshly initialized store over the two `btn_…` layers. -/
def storeBtn : Store := initStore [layerBtn1, layerBtn2] (some .readingOrder) initialStore

/-- `storeBtn` after `setCellValue(0, 2, "PRIMARY")`. -/
def storeBtnEdit : Store :=
  (setCellStore 0 2 "PRIMARY" storeBtn).getD initialStore

/-- `storeBtnEdit` reordered bottom-to-top (row order flips). -/
def storeBtnReordered : Store :=
  (reorderStore [layerBtn1, layerBtn2] .bottomToTop storeBtnEdit).getD initialStore

/-- An in-range operation sequence for the C5 witness. -/
def c5Ops : List GridOp := [.addCol 0, .setCell 0 1 "y", .delCol 0]

def c5After : Store := (applyGridOps c5Ops storeA).getD initialStore

/-! ## General lemmas -/

theorem mapM_eq_map_of {α β : Type} {f : α → Option β} {g : α → β} :
    ∀ {l : List α}, (∀ a ∈ l, f a = some (g a)) → l.mapM f = some (l.map g) := by
  intro l
  induction l with
  | nil => intro _; rfl
  | cons a t ih =>
    intro h
    rw [List.mapM_cons, h a (List.mem_cons_self a t),
      ih (fun x hx => h x (List.mem_cons_of_mem a hx))]
    rfl

theorem lastDigitRun_all_digits {l : List Char} (hne : l ≠ [])
    (hd : ∀ c ∈ l, c.isDigit) : lastDigitRun l = some ([], l, []) := by
  have hrev : ∀ c ∈ l.reverse, c.isDigit = true := fun c hc => hd c (List.mem_reverse.mp hc)
  obtain ⟨c, t, hR⟩ : ∃ c t, l.reverse = c :: t := by
    cases hR : l.reverse with
    | nil => exact absurd (by simpa using congrArg List.reverse hR) hne
    | cons c t => exact ⟨c, t, rfl⟩
  have hc : c.isDigit = true := hrev c (hR ▸ List.mem_cons_self c t)
  have hTW : l.reverse.takeWhile (fun c => !c.isDigit) = [] := by
    rw [hR, List.takeWhile_cons, hc]; rfl
  have hDW : l.reverse.dropWhile (fun c => !c.isDigit) = l.reverse := by
    rw [hR, List.dropWhile_cons]; simp [hc]
  have hTW2 : l.reverse.takeWhile Char.isDigit = l.reverse :=
    List.takeWhile_eq_self_iff.mpr hrev
  have hDW2 : l.reverse.dropWhile Char.isDigit = [] :=
    List.dropWhile_eq_nil_iff.mpr hrev
  have hrevne : l.reverse ≠ [] := by rw [hR]; exact List.cons_ne_nil c t
  simp only [lastDigitRun, hTW, hDW, hTW2, hDW2, if_neg hrevne, List.reverse_nil,
    List.reverse_reverse]

theorem digit_not_ws {c : Char} (h : c.isDigit = true) : jsWs c = false := by
  by_contra hne
  have hws : jsWs c = true := by revert hne; cases jsWs c <;> simp
  unfold jsWs at hws
  simp only [Bool.or_eq_true, decide_eq_true_eq] at hws
  rcases hws with ((((h1 | h2) | h3) | h4) | h5) | h6 <;>
    subst_vars <;> exact absurd h (by decide)

theorem parseIntJS_all_digits {v : String} (hne : v.data ≠ [])
    (hd : ∀ c ∈ v.data, c.isDigit) :
    parseIntJS v = some (digitsToNat v.data : Int) := by
  obtain ⟨c, t, hV⟩ : ∃ c t, v.data = c :: t := by
    cases hV : v.data with
    | nil => exact absurd hV hne
    | cons c t => exact ⟨c, t, rfl⟩
  have hc : c.isDigit = true := hd c (hV ▸ List.mem_cons_self c t)
  have hdw : v.data.dropWhile jsWs = v.data := by
    rw [hV, List.dropWhile_cons, digit_not_ws hc]; rfl
  have hcm : c ≠ '-' := by rintro rfl; exact absurd hc (by decide)
  have hcp : c ≠ '+' := by rintro rfl; exact absurd hc (by decide)
  have hld : leadDigits (c :: t) = some (digitsToNat (c :: t)) := by
    unfold leadDigits
    rw [List.takeWhile_eq_self_iff.mpr (fun x hx => hd x (hV ▸ hx))]
    simp [show c :: t ≠ [] from List.cons_ne_nil c t]
  unfold parseIntJS
  rw [hdw, hV]
  simp [if_neg hcm, if_neg hcp, hld, hV]

/-! ## Claim C1 -/

theorem stepsConstant_cons (d : Int) (ds : List Int) :
    stepsConstant (d :: ds) = if ds.all (· = d) then some d else none := rfl

theorem stepsConstant_replicate (d : Int) (k : Nat) :
    stepsConstant (d :: List.replicate k d) = some d := by
  rw [stepsConstant_cons, if_pos]
  rw [List.all_eq_true]
  intro x hx
  have := List.eq_of_mem_replicate hx
  simp [this]

theorem tryMixedSeries_digits (v0 v1 : String) (vs : List String) (d : Int)
    (hdig : ∀ v ∈ v0 :: v1 :: vs, v.data ≠ [] ∧ v.data.all Char.isDigit)
    (hsteps : stepsOf ((v0 :: v1 :: vs).map fun v => (digitsToNat v.data : Int)) =
      List.replicate (vs.length + 1) d) :
    tryMixedSeries (v0 :: v1 :: vs) =
      some { type := .mixed, values := v0 :: v1 :: vs, step := d,
             prefixStr := some "", suffixStr := some "", padLength := some v0.length } := by
  have g : ∀ v ∈ v0 :: v1 :: vs,
      parseMixedValue v =
      some { num := (digitsToNat v.data : Int), padLen := v.data.length,
             preStr := "", sufStr := "" } := by
    intro v hv
    unfold parseMixedValue
    rw [lastDigitRun_all_digits (hdig v hv).1
      (fun c hc => List.all_eq_true.mp (hdig v hv).2 c hc)]
    rfl
  have hmapM : (v0 :: v1 :: vs).mapM parseMixedValue =
      some (((⟨(digitsToNat v0.data : Int), v0.data.length, "", ""⟩ : MixedParse) ::
        ((v1 :: vs).map fun v =>
          { num := (digitsToNat v.data : Int), padLen := v.data.length,
            preStr := "", sufStr := "" : MixedParse }))) := by
    rw [mapM_eq_map_of g, List.map_cons]
  have hall : ((v1 :: vs).map fun v =>
      { num := (digitsToNat v.data : Int), padLen := v.data.length,
        preStr := "", sufStr := "" : MixedParse }).all
      (fun p => p.preStr = ("" : String) && p.sufStr = ("" : String)) = true := by
    rw [List.all_eq_true]
    intro p hp
    obtain ⟨v, _, rfl⟩ := List.mem_map.mp hp
    simp
  have hmm : (((⟨(digitsToNat v0.data : Int), v0.data.length, "", ""⟩ : MixedParse) ::
      ((v1 :: vs).map fun v =>
        { num := (digitsToNat v.data : Int), padLen := v.data.length,
          preStr := "", sufStr := "" : MixedParse })).map (·.num)) =
      ((v0 :: v1 :: vs).map fun v => (digitsToNat v.data : Int)) := by
    simp [List.map_map, Function.comp]
  have hsc : stepsConstant (stepsOf (((⟨(digitsToNat v0.data : Int), v0.data.length,
      "", ""⟩ : MixedParse) ::
      ((v1 :: vs).map fun v =>
        { num := (digitsToNat v.data : Int), padLen := v.data.length,
          preStr := "", sufStr := "" : MixedParse })).map (·.num))) = some d := by
    rw [hmm, hsteps, List.replicate_succ, stepsConstant_replicate]
  simp only [tryMixedSeries, hmapM, hall, if_true, hsc, String.length]

/-- C1 (amended): a sequence of two or more digits-only values with
constant successive difference `d` is classified by `detectSeries` as a
`mixed` series (not `numeric`) with step `d`, empty prefix and suffix, and
the first value's literal width as pad length — the mixed strategy runs
before the numeric one and captures every digits-only sequence. -/
theorem c1_theorem (v0 v1 : String) (vs : List String) (d : Int)
    (hdig : ∀ v ∈ v0 :: v1 :: vs, v.data ≠ [] ∧ v.data.all Char.isDigit)
    (hsteps : stepsOf ((v0 :: v1 :: vs).map fun v => (digitsToNat v.data : Int)) =
      List.replicate (vs.length + 1) d) :
    detectSeries (v0 :: v1 :: vs) =
      { type := .mixed, values := v0 :: v1 :: vs, step := d,
        prefixStr := some "", suffixStr := some "", padLength := some v0.length } := by
  unfold detectSeries
  rw [tryMixedSeries_digits v0 v1 vs d hdig hsteps]

/-- C1 witness: the spec's own example `["01","02","03"]`, through
`c1_theorem`. -/
theorem c1_witness :
    detectSeries ["01", "02", "03"] =
      { type := .mixed, values := ["01", "02", "03"], step := 1,
        prefixStr := some "", suffixStr := some "", padLength := some 2 } :=
  c1_theorem "01" "02" ["03"] 1 (by decide) (by decide)

/-- C1 counterexample: on `["01","02","03"]` the detected type is `mixed`,
not `numeric` as the claim states. -/
theorem c1_counterexample :
    (detectSeries ["01", "02", "03"]).type = SeriesType.mixed ∧
      (detectSeries ["01", "02", "03"]).type ≠ SeriesType.numeric := by
  decide

/-! ## Claim C2 -/

/-- C2 (amended): for a numeric series whose last value is a digits-only
string, the `k`-th continued value (0-based `i`, `k = i + 1`) is
`String(lastNum + step·k)` padded to the width of the last observed value —
with NO clamping of negative results, so a negative sum is emitted as a
signed string (see `c2_counterexample`). -/
theorem c2_theorem (values : List String) (lastV : String) (st : Int)
    (p sf : Option String) (pl : Option Nat) (count : Nat)
    (hlast : values.getLast? = some lastV)
    (hne : lastV.data ≠ []) (hd : ∀ c ∈ lastV.data, c.isDigit) :
    continueSeries { type := .numeric, values := values, step := st,
                     prefixStr := p, suffixStr := sf, padLength := pl } count =
      some ((List.range count).map fun i =>
        some (padStartJS (toString ((digitsToNat lastV.data : Int) + st * ((i : Int) + 1)))
          lastV.length '0')) := by
  simp only [continueSeries, hlast, parseIntJS_all_digits hne hd]

/-- C2 witness: `["08","09"]` with step 1 continues as `["10","11"]`,
through `c2_theorem`. -/
theorem c2_witness :
    continueSeries { type := .numeric, values := ["08", "09"], step := 1 } 2 =
      some [some "10", some "11"] := by
  rw [ c2_theorem ["08", "09"] "09" 1 none none none 2 (by decide) (by decide) (by decide)]
  decide

/-- C2 counterexample: the numeric branch does not clamp: for the numeric
series `["0"]` with step `-1`, the continuation is `["-1"]` — a string
containing a minus sign — instead of the claimed clamped `["0"]`. -/
theorem c2_counterexample :
    continueSeries { type := .numeric, values := ["0"], step := -1 } 1 = some [some "-1"] ∧
      '-' ∈ ("-1" : String).data ∧
      some [some "-1"] ≠ some [some ("0" : String)] := by
  decide

/-! ## Claim C6 -/

/-- C6 (amended): for a constant series the continuation cycles through the
observed values with wraparound (`values[i % values.length]` for nonempty
`values`); the division is guarded (`i % max(1, length)`), but when
`values` is empty every output element is JS `undefined` (`none`), not the
empty string (see `c6_counterexample`). -/
theorem c6_theorem (values : List String) (st : Int) (p sf : Option String)
    (pl : Option Nat) (count i : Nat) (hi : i < count)
    (res : Option (List (Option String)))
    (hres : continueSeries { type := .constant, values := values, step := st,
                             prefixStr := p, suffixStr := sf, padLength := pl } count = res) :
    res.map List.length = some count ∧
    res.map (fun l => l.get? i) = some (some (values.get? (i % max 1 values.length))) ∧
    (values ≠ [] →
      res.map (fun l => l.get? i) = some (some (values.get? (i % values.length)))) ∧
    (values = [] → res.map (fun l => l.get? i) = some (some none)) := by
  have hbase : res =
      some ((List.range count).map fun j => values.get? (j % max 1 values.length)) :=
    hres.symm
  subst hbase
  have hget : ((List.range count).map fun j =>
      values.get? (j % max 1 values.length)).get? i =
      some (values.get? (i % max 1 values.length)) := by
    rw [List.get?_map, List.get?_range hi]
    rfl
  refine ⟨?_, ?_, ?_, ?_⟩
  · simp
  · rw [Option.map_some']
    exact congrArg some hget
  · intro hne
    have hm : max 1 values.length = values.length :=
      Nat.max_eq_right (Nat.one_le_iff_ne_zero.mpr (by
        simpa [List.length_eq_zero] using hne))
    rw [Option.map_some']
    refine congrArg some ?_
    rw [hget, hm]
  · intro he
    subst he
    rw [Option.map_some']
    refine congrArg some ?_
    rw [hget]
    rfl

/-- C6 witness: the spec's own example, cycling `["red","blue"]`, through
`c6_theorem`; index 2 wraps around to `"red"`. -/
theorem c6_witness :
    (continueSeries { type := .constant, values := ["red", "blue"], step := 0 } 3).map
        (fun l => l.get? 2) = some (some (some "red")) := by
  have h := ( c6_theorem ["red", "blue"] 0 none none none 3 2 (by decide) _ rfl).2.2.1
    (by decide)
  rw [h]
  decide

/-- C6 counterexample: for an empty constant series the single output
element is `undefined` (`none`), not the empty string the claim requires. -/
theorem c6_counterexample :
    continueSeries { type := .constant, values := [], step := 0 } 1 = some [none] ∧
      (none : Option String) ≠ some "" := by
  decide

/-! ## Claim C7 -/

theorem groupLoop_length_pos (brk : Char → Char → Bool) :
    ∀ (rest cur : List Char) (prev : Char), 1 ≤ (groupLoop brk cur prev rest).length := by
  intro rest
  induction rest with
  | nil => intro cur prev; simp [groupLoop]
  | cons c cs ih =>
    intro cur prev
    unfold groupLoop
    by_cases h : brk prev c
    · simp [h]
    · simpa [h] using ih (cur ++ [c]) c

theorem groupLoop_ne_nil (brk : Char → Char → Bool) :
    ∀ (rest cur : List Char) (prev : Char), cur ≠ [] →
      ∀ g ∈ groupLoop brk cur prev rest, g ≠ [] := by
  intro rest
  induction rest with
  | nil =>
    intro cur prev hcur g hg
    simp only [groupLoop, List.mem_singleton] at hg
    exact hg ▸ hcur
  | cons c cs ih =>
    intro cur prev hcur g hg
    unfold groupLoop at hg
    by_cases h : brk prev c
    · rw [if_pos h] at hg
      rcases List.mem_cons.mp hg with rfl | hg'
      · exact hcur
      · exact ih [c] c (List.cons_ne_nil c []) g hg'
    · rw [if_neg h] at hg
      exact ih (cur ++ [c]) c (by simp) g hg

theorem groupLoop_flatten (brk : Char → Char → Bool) :
    ∀ (rest cur : List Char) (prev : Char),
      (groupLoop brk cur prev rest).flatten = cur ++ rest := by
  intro rest
  induction rest with
  | nil => intro cur prev; simp [groupLoop]
  | cons c cs ih =>
    intro cur prev
    unfold groupLoop
    by_cases h : brk prev c
    · simp [h, ih [c] c]
    · simp [h, ih (cur ++ [c]) c]

theorem groupSplit_flatten (brk : Char → Char → Bool) (l : List Char) :
    (groupSplit brk l).flatten = l := by
  cases l with
  | nil => rfl
  | cons c cs => simpa using groupLoop_flatten brk cs [c] c

theorem groupSplit_ne_nil (brk : Char → Char → Bool) (l : List Char) :
    ∀ g ∈ groupSplit brk l, g ≠ [] := by
  cases l with
  | nil => intro g hg; simp [groupSplit] at hg
  | cons c cs => exact groupLoop_ne_nil brk cs [c] c (List.cons_ne_nil c [])

theorem groupLoop_two_le (brk : Char → Char → Bool) :
    ∀ (rest cur : List Char) (prev : Char), AdjBrk brk prev rest = true →
      2 ≤ (groupLoop brk cur prev rest).length := by
  intro rest
  induction rest with
  | nil => intro cur prev h; exact absurd h (by simp [AdjBrk])
  | cons c cs ih =>
    intro cur prev h
    unfold groupLoop
    by_cases hb : brk prev c
    · simpa [hb] using groupLoop_length_pos brk cs [c] c
    · have h' : AdjBrk brk c cs = true := by
        unfold AdjBrk at h
        simpa [hb] using h
      simpa [hb] using ih (cur ++ [c]) c h'

theorem hasLowerUpper_adj :
    ∀ (cs : List Char) (c : Char), hasLowerUpper (c :: cs) = true →
      AdjBrk camelBrk c cs = true := by
  intro cs
  induction cs with
  | nil => intro c h; exact absurd h (by simp [hasLowerUpper])
  | cons b t ih =>
    intro c h
    unfold hasLowerUpper at h
    unfold AdjBrk
    rcases Bool.or_eq_true _ _ |>.mp h with h1 | h2
    · have : b.isUpper = true := (Bool.and_eq_true _ _ |>.mp h1).2
      simp [camelBrk, this]
    · simp [ih b h2]

theorem trySeparatorParsing_eq_none {s : String}
    (h : ∀ c ∈ s.data, sepTest c = false) : trySeparatorParsing s = none := by
  unfold trySeparatorParsing
  rw [if_neg]
  intro hany
  obtain ⟨c, hc, hct⟩ := List.any_eq_true.mp hany
  exact absurd hct (by simp [h c hc])

theorem tryCamelCaseParsing_eq {s : String} (h : hasLowerUpper s.data = true) :
    tryCamelCaseParsing s = some ((groupSplit camelBrk s.data).map String.mk) := by
  obtain ⟨c, cs, hV⟩ : ∃ c cs, s.data = c :: cs := by
    cases hV : s.data with
    | nil => rw [hV] at h; exact absurd h (by simp [hasLowerUpper])
    | cons c cs => exact ⟨c, cs, rfl⟩
  have hlen : 2 ≤ ((groupSplit camelBrk s.data).map String.mk).length := by
    rw [List.length_map, hV]
    exact groupLoop_two_le camelBrk cs [c] c (hasLowerUpper_adj cs c (hV ▸ h))
  unfold tryCamelCaseParsing
  rw [if_pos h, if_pos (by omega)]

/-- C7 (amended): when a string contains none of the separator-test
characters and has a lowercase letter immediately followed by an uppercase
letter, `parse` uses the case-boundary strategy, which splits immediately
before EVERY uppercase letter (other than at position 0) — not only before
uppercase letters that follow a lowercase one (see `c7_counterexample`). -/
theorem c7_theorem (s : String) (hsep : ∀ c ∈ s.data, sepTest c = false)
    (hlu : hasLowerUpper s.data = true) :
    (parseLayerName s).parts = (groupSplit camelBrk s.data).map String.mk := by
  unfold parseLayerName
  rw [trySeparatorParsing_eq_none hsep, tryCamelCaseParsing_eq hlu]

/-- C7 witness: `"iconBgHover"` through `c7_theorem`; the split is
`["icon","Bg","Hover"]`, as in the spec's example. -/
theorem c7_witness :
    (parseLayerName "iconBgHover").parts =
        (groupSplit camelBrk ("iconBgHover" : String).data).map String.mk ∧
      (groupSplit camelBrk ("iconBgHover" : String).data).map String.mk =
        ["icon", "Bg", "Hover"] :=
  ⟨ c7_theorem "iconBgHover" (by decide) (by decide), by decide⟩

/-- C7 counterexample: `"aBC"` contains the lowercase-uppercase adjacency
`aB` and triggers no earlier strategy, but `parse` splits it as
`["a","B","C"]` — it also splits between the two adjacent uppercase
letters `B` and `C`, where the claim (split only where an uppercase
follows a lowercase) requires `["a","BC"]`. -/
theorem c7_counterexample :
    (parseLayerName "aBC").parts = ["a", "B", "C"] ∧
      (["a", "B", "C"] : List String) ≠ ["a", "BC"] := by
  decide

/-! ## Claim C4 -/

theorem pushHistory_getLast? (h : List GridState) (g : GridState) :
    (pushHistory h g).getLast? = some g := by
  unfold pushHistory
  exact List.getLast?_concat _

theorem undo_redo_of_push (g' : GridState) (s : Store) (cnt' : Nat) :
    (undoStore { grid := g', history := pushHistory s.history s.grid,
                 future := [], cnt := cnt' }).grid = s.grid ∧
      (redoStore (undoStore { grid := g', history := pushHistory s.history s.grid,
                              future := [], cnt := cnt' })).grid = g' := by
  constructor
  · simp [undoStore, pushHistory_getLast?]
  · simp [undoStore, redoStore, pushHistory_getLast?]

/-- C4 (amended): for every mutating operation that actually records
history — `setCellValue`, `setColumnHeader`, `addColumn`, `fillCells`
always (with in-range indices), `deleteColumn` only when at least two
columns exist — `undo` right after the operation restores the grid state
that held before it, and `redo` right after that `undo` restores the
post-operation grid state.  (`deleteColumn` with a single column is a
silent no-op that records nothing, which breaks the round trip: see
`c4_counterexample`.) -/
theorem c4_theorem (op : MutOp) (s s' : Store) (hv : ValidMut op s)
    (happ : applyMut op s = some s') :
    (undoStore s').grid = s.grid ∧ (redoStore (undoStore s')).grid = s'.grid := by
  have hshape : ∃ g' cnt',
      s' = { grid := g', history := pushHistory s.history s.grid,
             future := [], cnt := cnt' } := by
    cases op with
    | setCell r c v =>
      simp only [applyMut, setCellStore] at happ
      have hr : r < s.grid.rows.length := hv
      rw [List.get?_eq_get hr] at happ
      exact ⟨_, _, (Option.some.inj happ).symm⟩
    | setHeader i hd =>
      simp only [applyMut, setHeaderStore] at happ
      have hi : i < s.grid.columns.length := hv
      rw [List.get?_eq_get hi] at happ
      exact ⟨_, _, (Option.some.inj happ).symm⟩
    | addCol i =>
      simp only [applyMut, addColumnStore] at happ
      exact ⟨_, _, (Option.some.inj happ).symm⟩
    | delCol i =>
      simp only [applyMut, deleteColumnStore] at happ
      have h2 : 2 ≤ s.grid.columns.length := hv
      rw [if_neg (by omega)] at happ
      exact ⟨_, _, (Option.some.inj happ).symm⟩
    | fill fs =>
      simp only [applyMut, fillCellsStore] at happ
      exact ⟨_, _, (Option.some.inj happ).symm⟩
  obtain ⟨g', cnt', rfl⟩ := hshape
  exact undo_redo_of_push g' s cnt'

/-- C4 witness: `setCellValue(0,0,"x")` on a freshly initialized grid,
through `c4_theorem`. -/
theorem c4_witness :
    ValidMut (MutOp.setCell 0 0 "x") storeA ∧
      (undoStore storeAx).grid = storeA.grid ∧
      (redoStore (undoStore storeAx)).grid = storeAx.grid :=
  ⟨by decide, c4_theorem (MutOp.setCell 0 0 "x") storeA storeAx (by decide) (by decide)⟩

/-- C4 counterexample: `storeA1` is reachable (initialize over the layer
`"a"`, then delete column 0) and has exactly one column and a non-empty
undo stack.  Applying `deleteColumn(0)` there is a silent no-op, so the
following `undo` restores the two-column state of an EARLIER operation,
not the one-column state that held before this `deleteColumn`. -/
theorem c4_counterexample :
    (undoStore (deleteColumnStore 0 storeA1)).grid ≠ storeA1.grid ∧
      (undoStore (deleteColumnStore 0 storeA1)).grid.columns.length = 2 ∧
      storeA1.grid.columns.length = 1 := by
  decide

/-! ## Claim C10 -/

/-- C10: `reorderByDirection` never touches the undo or redo stacks (it is
a view-level permutation, not a history event): whenever it produces a
state, that state's history and future are exactly the input's. -/
theorem c10_theorem (layers : List LayerInfo) (direction : SortDirection)
    (s s' : Store) (h : reorderStore layers direction s = some s') :
    s'.history = s.history ∧ s'.future = s.future := by
  simp only [reorderStore] at h
  split at h
  · obtain rfl := Option.some.inj h
    exact ⟨rfl, rfl⟩
  · exact absurd h (by simp)

/-- C10 witness: a reorder of an edited two-layer grid (non-empty undo
stack), through `c10_theorem`. -/
theorem c10_witness :
    storeBtnReordered.history = storeBtnEdit.history ∧
      storeBtnReordered.future = storeBtnEdit.future :=
  c10_theorem [layerBtn1, layerBtn2] .bottomToTop storeBtnEdit storeBtnReordered
    (by decide)

/-! ## Claim C9 -/

theorem getLast?_mem {α : Type} {l : List α} {a : α} (h : l.getLast? = some a) :
    a ∈ l := by
  obtain ⟨hne, heq⟩ := List.mem_getLast?_eq_getLast (Option.mem_def.mpr h)
  rw [heq]
  exact List.getLast_mem hne

theorem mem_pushHistory {g' : GridState} {h : List GridState} {g : GridState}
    (hm : g' ∈ pushHistory h g) : g' ∈ h ∨ g' = g := by
  unfold pushHistory at hm
  rcases List.mem_append.mp hm with h1 | h2
  · exact Or.inl (List.drop_subset _ _ h1)
  · exact Or.inr (List.mem_singleton.mp h2)

theorem spliceIndex_le (i : Int) (len : Nat) : spliceIndex i len ≤ len := by
  unfold spliceIndex
  split <;> omega

theorem spliceInsert_length (l : List α) (i : Int) (a : α) :
    (spliceInsert l i a).length = l.length + 1 := by
  have hk := spliceIndex_le i l.length
  unfold spliceInsert
  simp only [List.length_append, List.length_take, List.length_drop,
    List.length_singleton]
  omega

/-- C9: (a) `deleteColumn` is a complete no-op — grid, history, redo stack
and counter all unchanged — when exactly one column exists; (b) every store
operation preserves "at least one column exists" (in the current grid and
in every history/future snapshot); (c) the initial store satisfies it.
Hence at least one column exists after any operation sequence. -/
theorem c9_theorem :
    (∀ (s : Store) (i : Nat), s.grid.columns.length = 1 → deleteColumnStore i s = s) ∧
      (∀ (op : StoreOp) (s s' : Store), OneCol s → applyStoreOp op s = some s' →
        OneCol s') ∧
      OneCol initialStore := by
  refine ⟨?_, ?_, by decide⟩
  · intro s i h1
    unfold deleteColumnStore
    rw [if_pos (by omega)]
  · intro op s s' hone happ
    obtain ⟨h1, h2, h3⟩ := hone
    have hpush : ∀ (g' : GridState), 1 ≤ g'.columns.length → ∀ (cnt' : Nat),
        OneCol { grid := g', history := pushHistory s.history s.grid,
                 future := [], cnt := cnt' } := by
      intro g' hg cnt'
      refine ⟨hg, ?_, by simp⟩
      intro g hm
      rcases mem_pushHistory hm with hx | rfl
      · exact h2 g hx
      · exact h1
    cases op with
    | mutOp m =>
      cases m with
      | setCell r c v =>
        simp only [applyStoreOp, applyMut, setCellStore] at happ
        cases hrow : s.grid.rows.get? r with
        | none => rw [hrow] at happ; exact absurd happ (by simp)
        | some row =>
          rw [hrow] at happ
          obtain rfl := Option.some.inj happ
          refine hpush _ ?_ _
          exact h1
      | setHeader i hd =>
        simp only [applyStoreOp, applyMut, setHeaderStore] at happ
        cases hcol : s.grid.columns.get? i with
        | none => rw [hcol] at happ; exact absurd happ (by simp)
        | some col =>
          rw [hcol] at happ
          obtain rfl := Option.some.inj happ
          refine hpush _ ?_ _
          simpa using h1
      | addCol i =>
        simp only [applyStoreOp, applyMut, addColumnStore] at happ
        obtain rfl := Option.some.inj happ
        refine hpush _ ?_ _
        rw [spliceInsert_length]
        omega
      | delCol i =>
        simp only [applyStoreOp, applyMut, deleteColumnStore] at happ
        by_cases hle : s.grid.columns.length ≤ 1
        · rw [if_pos hle] at happ
          obtain rfl := Option.some.inj happ
          exact ⟨h1, h2, h3⟩
        · rw [if_neg hle] at happ
          obtain rfl := Option.some.inj happ
          refine hpush _ ?_ _
          rw [List.length_eraseIdx]
          split <;> omega
      | fill fs =>
        simp only [applyStoreOp, applyMut, fillCellsStore] at happ
        obtain rfl := Option.some.inj happ
        refine hpush _ ?_ _
        exact h1
    | undoOp =>
      simp only [applyStoreOp, undoStore] at happ
      cases hlast : s.history.getLast? with
      | none =>
        rw [hlast] at happ
        obtain rfl := Option.some.inj happ
        exact ⟨h1, h2, h3⟩
      | some g =>
        rw [hlast] at happ
        obtain rfl := Option.some.inj happ
        refine ⟨h2 g (getLast?_mem hlast), ?_, ?_⟩
        · intro g0 hg0
          exact h2 g0 (List.dropLast_subset _ hg0)
        · intro g0 hg0
          rcases List.mem_cons.mp hg0 with rfl | hx
          · exact h1
          · exact h3 g0 hx
    | redoOp =>
      simp only [applyStoreOp, redoStore] at happ
      cases hf : s.future with
      | nil =>
        rw [hf] at happ
        obtain rfl := Option.some.inj happ
        exact ⟨h1, h2, h3⟩
      | cons g rest =>
        rw [hf] at happ
        obtain rfl := Option.some.inj happ
        refine ⟨h3 g (hf ▸ List.mem_cons_self g rest), ?_, ?_⟩
        · intro g0 hg0
          rcases List.mem_append.mp hg0 with hx | hx
          · exact h2 g0 hx
          · rw [List.mem_singleton.mp hx]; exact h1
        · intro g0 hg0
          exact h3 g0 (hf ▸ List.mem_cons_of_mem g hg0)
    | sortDir d =>
      simp only [applyStoreOp, setSortDirectionStore] at happ
      obtain rfl := Option.some.inj happ
      exact ⟨h1, h2, h3⟩
    | reorder ls d =>
      simp only [applyStoreOp, reorderStore] at happ
      split at happ
      · obtain rfl := Option.some.inj happ
        exact ⟨h1, h2, h3⟩
      · exact absurd happ (by simp)
    | initLayers ls d =>
      simp only [applyStoreOp, initStore] at happ
      obtain rfl := Option.some.inj happ
      exact ⟨by simp, h2, h3⟩

/-- C9 witness: on the reachable one-column store `storeA1`,
`deleteColumn` (any index) is a no-op, and an `undo` there still satisfies
the one-column invariant; both through `c9_theorem`. -/
theorem c9_witness :
    deleteColumnStore 5 storeA1 = storeA1 ∧ OneCol (undoStore storeA1) :=
  ⟨c9_theorem.1 storeA1 5 (by decide),
   c9_theorem.2.1 StoreOp.undoOp storeA1 (undoStore storeA1) (by decide) (by decide)⟩

/-! ## Claim C5 -/

theorem jsSetStr_length_of_lt {row : List String} {c : Nat} {v : String}
    (h : c < row.length) : (jsSetStr row c v).length = row.length := by
  unfold jsSetStr
  rw [if_pos h]
  exact List.length_set row c v

theorem gridop_preserves (op : GridOp) (s s' : Store) (hInv : GridInv s.grid)
    (hv : ValidGridOp op s) (happ : applyGridOp op s = some s') : GridInv s'.grid := by
  obtain ⟨hrowlen, hrows⟩ := hInv
  cases op with
  | setCell r c v =>
    obtain ⟨hr, hc⟩ := hv
    simp only [applyGridOp, setCellStore] at happ
    rw [List.get?_eq_get hr] at happ
    obtain rfl := Option.some.inj happ
    constructor
    · intro row' hrow'
      rcases List.mem_or_eq_of_mem_set hrow' with hx | rfl
      · exact hrowlen row' hx
      · have hmem : s.grid.rows.get ⟨r, hr⟩ ∈ s.grid.rows := List.get_mem _ _ _
        have hlen : (s.grid.rows.get ⟨r, hr⟩).length = s.grid.columns.length :=
          hrowlen _ hmem
        rw [jsSetStr_length_of_lt (by omega), hlen]
    · simpa using hrows
  | addCol i =>
    simp only [applyGridOp, addColumnStore] at happ
    obtain rfl := Option.some.inj happ
    constructor
    · intro row' hrow'
      obtain ⟨row, hrowm, rfl⟩ := List.mem_map.mp hrow'
      rw [spliceInsert_length, spliceInsert_length, hrowlen row hrowm]
    · simpa using hrows
  | delCol i =>
    simp only [applyGridOp, deleteColumnStore] at happ
    by_cases hle : s.grid.columns.length ≤ 1
    · rw [if_pos hle] at happ
      obtain rfl := Option.some.inj happ
      exact ⟨hrowlen, hrows⟩
    · rw [if_neg hle] at happ
      obtain rfl := Option.some.inj happ
      constructor
      · intro row' hrow'
        obtain ⟨row, hrowm, rfl⟩ := List.mem_map.mp hrow'
        rw [List.length_eraseIdx, List.length_eraseIdx, hrowlen row hrowm]
      · simpa using hrows

/-- C5 (amended): starting from a grid satisfying the shape invariant,
any finite sequence of `addColumn` / `deleteColumn` / `setCellValue` calls
whose `setCellValue` indices are in range (`row < rows.length`,
`col < columns.length`) preserves the invariant: every row is as long as
the column list and there are as many rows as layer ids.  (An out-of-range
`col` breaks it: see `c5_counterexample`.) -/
theorem c5_theorem (ops : List GridOp) (s s' : Store) (hInv : GridInv s.grid)
    (hvalid : validGridOps ops s = true) (happ : applyGridOps ops s = some s') :
    GridInv s'.grid := by
  induction ops generalizing s with
  | nil =>
    simp only [applyGridOps, List.foldlM_nil] at happ
    obtain rfl := Option.some.inj happ
    exact hInv
  | cons op t ih =>
    rw [applyGridOps, List.foldlM_cons] at happ
    unfold validGridOps at hvalid
    cases happl : applyGridOp op s with
    | none => rw [happl] at happ; exact absurd happ (by simp)
    | some s1 =>
      rw [happl] at happ
      rw [happl] at hvalid
      obtain ⟨hv1, hv2⟩ := Bool.and_eq_true _ _ |>.mp hvalid
      exact ih s1 (gridop_preserves op s s1 hInv (of_decide_eq_true hv1) happl)
        hv2 (by simpa using happ)

/-- C5 witness: add a column, set an in-range cell, delete a column — the
invariant holds at the end, through `c5_theorem`. -/
theorem c5_witness :
    GridInv storeA.grid ∧ validGridOps c5Ops storeA = true ∧ GridInv c5After.grid :=
  ⟨by decide, by decide,
   c5_theorem c5Ops storeA c5After (by decide) (by decide) (by decide)⟩

/-- C5 counterexample: on the freshly initialized two-column grid over the
layer `"a"`, the single call `setCellValue(0, 2, "x")` (row in range,
column one past the end) extends the row to length 3 while two columns
exist — the invariant fails after a sequence of the claimed operations. -/
theorem c5_counterexample :
    (setCellStore 0 2 "x" storeA).map (fun s => decide (GridInv s.grid)) = some false ∧
      (setCellStore 0 2 "x" storeA).map
        (fun s => (s.grid.rows.map List.length, s.grid.columns.length)) =
        some ([3], 2) := by
  decide

/-! ## Claim C3: the parser re-joins to the original name -/

theorem data_eq_nil_iff (s : String) : s.data = [] ↔ s = "" := by
  constructor
  · intro h
    have : String.mk s.data = String.mk [] := by rw [h]
    simpa using this
  · intro h
    rw [h]

theorem sepLoop_flatten :
    ∀ (rest cur : List Char),
      ((sepLoop cur rest).map String.data).flatten = cur ++ rest := by
  intro rest
  induction rest with
  | nil =>
    intro cur
    by_cases h : cur = []
    · simp [sepLoop, h]
    · simp [sepLoop, h]
  | cons c cs ih =>
    intro cur
    unfold sepLoop
    by_cases h : isSepChar c
    · by_cases hc : cur = []
      · simp [h, hc, ih []]
      · simp [h, hc, ih []]
    · simpa [h] using ih (cur ++ [c])

theorem sepLoop_ne_nil :
    ∀ (rest cur : List Char), ∀ p ∈ sepLoop cur rest, p.data ≠ [] := by
  intro rest
  induction rest with
  | nil =>
    intro cur p hp
    unfold sepLoop at hp
    by_cases h : cur = []
    · simp [h] at hp
    · rw [if_neg h] at hp
      obtain rfl := List.mem_singleton.mp hp
      simpa using h
  | cons c cs ih =>
    intro cur p hp
    unfold sepLoop at hp
    by_cases h : isSepChar c
    · rw [if_pos h] at hp
      rcases List.mem_append.mp hp with h1 | h2
      · by_cases hc : cur = []
        · rw [if_pos hc] at h1
          obtain rfl := List.mem_singleton.mp h1
          simp
        · rw [if_neg hc] at h1
          rcases List.mem_cons.mp h1 with rfl | h1'
          · simpa using hc
          · obtain rfl := List.mem_singleton.mp h1'
            simp
      · exact ih [] p h2
    · rw [if_neg h] at hp
      exact ih (cur ++ [c]) p hp

theorem findWordFrom_two_le (rem : List Char) :
    ∀ (k len : Nat), findWordFrom rem k = some len → 2 ≤ len := by
  intro k
  induction k using Nat.strong_induction_on with
  | _ k ih =>
    match k with
    | 0 => intro len h; exact absurd h (by simp [findWordFrom])
    | 1 => intro len h; exact absurd h (by simp [findWordFrom])
    | k + 2 =>
      intro len h
      unfold findWordFrom at h
      split at h
      · obtain rfl := Option.some.inj h
        omega
      · exact ih (k + 1) (by omega) len h

theorem findWordLen_two_le {rem : List Char} {len : Nat}
    (h : findWordLen rem = some len) : 2 ≤ len :=
  findWordFrom_two_le rem _ len h

theorem getLastD_append_of_ne_nil {l : List String} (h : l ≠ []) :
    l.dropLast ++ [l.getLastD ""] = l := by
  rw [List.getLastD_eq_getLast?, List.getLast?_eq_getLast l h]
  exact List.dropLast_append_getLast h

theorem dictConsume_flatten (parts : List String) (c : Char) :
    ((dictConsume parts c).map String.data).flatten =
      (parts.map String.data).flatten ++ [c] := by
  unfold dictConsume
  by_cases h : 0 < parts.length ∧ (parts.getLastD "").length < 3
  · rw [if_pos h]
    have hne : parts ≠ [] := by
      intro he
      rw [he] at h
      simp at h
    calc ((parts.dropLast ++ [parts.getLastD "" ++ String.mk [c]]).map String.data).flatten
        = ((parts.dropLast ++ [parts.getLastD ""]).map String.data).flatten ++ [c] := by
          simp [List.map_append, List.flatten_append]
      _ = (parts.map String.data).flatten ++ [c] := by
          rw [getLastD_append_of_ne_nil hne]
  · rw [if_neg h]
    simp [List.map_append, List.flatten_append]

theorem dictConsume_ne_nil {parts : List String} (c : Char)
    (hps : ∀ p ∈ parts, p.data ≠ []) :
    ∀ p ∈ dictConsume parts c, p.data ≠ [] := by
  intro p hp
  unfold dictConsume at hp
  by_cases h : 0 < parts.length ∧ (parts.getLastD "").length < 3
  · rw [if_pos h] at hp
    rcases List.mem_append.mp hp with h1 | h2
    · exact hps p (List.dropLast_subset _ h1)
    · obtain rfl := List.mem_singleton.mp h2
      simp
  · rw [if_neg h] at hp
    rcases List.mem_append.mp hp with h1 | h2
    · exact hps p h1
    · obtain rfl := List.mem_singleton.mp h2
      simp

theorem dictLoop_flatten :
    ∀ (fuel : Nat) (rem : List Char) (parts : List String), rem.length ≤ fuel →
      ((dictLoop fuel rem parts).map String.data).flatten =
        (parts.map String.data).flatten ++ rem := by
  intro fuel
  induction fuel with
  | zero =>
    intro rem parts hle
    have : rem = [] := List.length_eq_zero.mp (by omega)
    subst this
    simp [dictLoop]
  | succ fuel ih =>
    intro rem parts hle
    match rem with
    | [] => simp [dictLoop]
    | c :: rest =>
      unfold dictLoop
      cases hfw : findWordLen (c :: rest) with
      | some len =>
        have h2 : 2 ≤ len := findWordLen_two_le hfw
        have hdl : ((c :: rest).drop len).length ≤ fuel := by
          simp only [List.length_drop]
          simp only [List.length_cons] at hle ⊢
          omega
        rw [ih _ _ hdl]
        simp only [List.map_append, List.flatten_append, List.map_cons, List.map_nil,
          List.flatten_cons, List.flatten_nil]
        rw [List.append_nil, List.append_assoc, List.take_append_drop]
      | none =>
        have hrl : rest.length ≤ fuel := by
          simp only [List.length_cons] at hle
          omega
        rw [ih _ _ hrl, dictConsume_flatten]
        simp

theorem dictLoop_ne_nil :
    ∀ (fuel : Nat) (rem : List Char) (parts : List String),
      (∀ p ∈ parts, p.data ≠ []) → ∀ p ∈ dictLoop fuel rem parts, p.data ≠ [] := by
  intro fuel
  induction fuel with
  | zero => intro rem parts hps p hp; exact hps p hp
  | succ fuel ih =>
    intro rem parts hps p hp
    match rem with
    | [] => exact hps p (by simpa [dictLoop] using hp)
    | c :: rest =>
      unfold dictLoop at hp
      cases hfw : findWordLen (c :: rest) with
      | some len =>
        rw [hfw] at hp
        refine ih _ _ ?_ p hp
        intro q hq
        rcases List.mem_append.mp hq with h1 | h2
        · exact hps q h1
        · obtain rfl := List.mem_singleton.mp h2
          have h2le : 2 ≤ len := findWordLen_two_le hfw
          show (List.take len (c :: rest)) ≠ []
          intro hcon
          have := congrArg List.length hcon
          simp only [List.length_take, List.length_cons, List.length_nil] at this
          omega
      | none =>
        rw [hfw] at hp
        exact ih _ _ (dictConsume_ne_nil c hps) p hp

theorem mergeStep_flatten (acc : List String) (part : String) :
    ((mergeStep acc part).map String.data).flatten =
      (acc.map String.data).flatten ++ part.data := by
  have hmerge : acc ≠ [] →
      ((acc.dropLast ++ [acc.getLastD "" ++ part]).map String.data).flatten =
        (acc.map String.data).flatten ++ part.data := by
    intro hne
    calc ((acc.dropLast ++ [acc.getLastD "" ++ part]).map String.data).flatten
        = ((acc.dropLast ++ [acc.getLastD ""]).map String.data).flatten ++ part.data := by
          simp [List.map_append, List.flatten_append]
      _ = (acc.map String.data).flatten ++ part.data := by
          rw [getLastD_append_of_ne_nil hne]
  unfold mergeStep
  by_cases h1 : part.length = 1 ∧ 0 < acc.length
  · rw [if_pos h1]
    exact hmerge (by intro he; rw [he] at h1; simp at h1)
  · rw [if_neg h1]
    by_cases h2 : part.length = 1 ∧ acc.length = 0
    · rw [if_pos h2]
      simp [List.map_append, List.flatten_append]
    · rw [if_neg h2]
      by_cases h3 : 0 < acc.length ∧ (acc.getLastD "").length = 1
      · rw [if_pos h3]
        exact hmerge (by intro he; rw [he] at h3; simp at h3)
      · rw [if_neg h3]
        simp [List.map_append, List.flatten_append]

theorem mergeFold_flatten :
    ∀ (parts acc : List String),
      ((parts.foldl mergeStep acc).map String.data).flatten =
        (acc.map String.data).flatten ++ (parts.map String.data).flatten := by
  intro parts
  induction parts with
  | nil => intro acc; simp
  | cons p t ih =>
    intro acc
    simp only [List.foldl_cons, List.map_cons, List.flatten_cons]
    rw [ih (mergeStep acc p), mergeStep_flatten, List.append_assoc]

theorem mergeSingleChars_flatten (parts : List String) :
    ((mergeSingleChars parts).map String.data).flatten =
      (parts.map String.data).flatten := by
  unfold mergeSingleChars
  simpa using mergeFold_flatten parts []

theorem mergeStep_ne_nil {acc : List String} {part : String}
    (hacc : ∀ p ∈ acc, p.data ≠ []) (hpart : part.data ≠ []) :
    ∀ p ∈ mergeStep acc part, p.data ≠ [] := by
  have hmerge : ∀ p ∈ acc.dropLast ++ [acc.getLastD "" ++ part], p.data ≠ [] := by
    intro p hp
    rcases List.mem_append.mp hp with hx | hx
    · exact hacc p (List.dropLast_subset _ hx)
    · obtain rfl := List.mem_singleton.mp hx
      show (acc.getLastD "").data ++ part.data ≠ []
      simp [hpart]
  have hpush : ∀ p ∈ acc ++ [part], p.data ≠ [] := by
    intro p hp
    rcases List.mem_append.mp hp with hx | hx
    · exact hacc p hx
    · obtain rfl := List.mem_singleton.mp hx
      exact hpart
  intro p hp
  unfold mergeStep at hp
  by_cases h1 : part.length = 1 ∧ 0 < acc.length
  · rw [if_pos h1] at hp
    exact hmerge p hp
  · rw [if_neg h1] at hp
    by_cases h2 : part.length = 1 ∧ acc.length = 0
    · rw [if_pos h2] at hp
      exact hpush p hp
    · rw [if_neg h2] at hp
      by_cases h3 : 0 < acc.length ∧ (acc.getLastD "").length = 1
      · rw [if_pos h3] at hp
        exact hmerge p hp
      · rw [if_neg h3] at hp
        exact hpush p hp

theorem mergeFold_ne_nil :
    ∀ (parts acc : List String), (∀ p ∈ acc, p.data ≠ []) →
      (∀ p ∈ parts, p.data ≠ []) →
      ∀ p ∈ parts.foldl mergeStep acc, p.data ≠ [] := by
  intro parts
  induction parts with
  | nil => intro acc hacc _ p hp; exact hacc p hp
  | cons q t ih =>
    intro acc hacc hparts p hp
    simp only [List.foldl_cons] at hp
    exact ih (mergeStep acc q)
      (mergeStep_ne_nil hacc (hparts q (List.mem_cons_self q t)))
      (fun x hx => hparts x (List.mem_cons_of_mem q hx)) p hp

theorem mergeSingleChars_ne_nil {parts : List String}
    (hparts : ∀ p ∈ parts, p.data ≠ []) :
    ∀ p ∈ mergeSingleChars parts, p.data ≠ [] := by
  unfold mergeSingleChars
  exact mergeFold_ne_nil parts [] (by simp) hparts

theorem trySeparatorParsing_some {s : String} {parts : List String}
    (h : trySeparatorParsing s = some parts) : parts = sepLoop [] s.data := by
  unfold trySeparatorParsing at h
  split at h
  · split at h
    · exact (Option.some.inj h).symm
    · exact absurd h (by simp)
  · exact absurd h (by simp)

theorem tryCamelCaseParsing_some {s : String} {parts : List String}
    (h : tryCamelCaseParsing s = some parts) :
    parts = (groupSplit camelBrk s.data).map String.mk := by
  unfold tryCamelCaseParsing at h
  split at h
  · split at h
    · exact (Option.some.inj h).symm
    · exact absurd h (by simp)
  · exact absurd h (by simp)

theorem tryNumberBoundaryParsing_some {s : String} {parts : List String}
    (h : tryNumberBoundaryParsing s = some parts) :
    parts = (groupSplit digitBrk s.data).map String.mk := by
  unfold tryNumberBoundaryParsing at h
  split at h
  · split at h
    · exact (Option.some.inj h).symm
    · exact absurd h (by simp)
  · exact absurd h (by simp)

theorem tryDictionaryParsing_some {s : String} {parts : List String}
    (h : tryDictionaryParsing s = some parts) :
    parts = mergeSingleChars (dictLoop s.data.length s.data []) := by
  unfold tryDictionaryParsing at h
  split at h
  · exact (Option.some.inj h).symm
  · exact absurd h (by simp)

theorem groups_mk_flatten (groups : List (List Char)) :
    ((groups.map String.mk).map String.data).flatten = groups.flatten := by
  rw [List.map_map]
  exact congrArg List.flatten (List.map_id groups)

/-- Re-joining the parts of any parse reproduces the original character
sequence: parts partition the input for each of the four strategies, and
the fallback is the whole string. -/
theorem parse_parts_flatten (s : String) :
    (((parseLayerName s).parts).map String.data).flatten = s.data := by
  unfold parseLayerName
  cases hsep : trySeparatorParsing s with
  | some parts =>
    rw [trySeparatorParsing_some hsep]
    simpa using sepLoop_flatten s.data []
  | none =>
    cases hcam : tryCamelCaseParsing s with
    | some parts =>
      rw [tryCamelCaseParsing_some hcam, groups_mk_flatten]
      exact groupSplit_flatten camelBrk s.data
    | none =>
      cases hnum : tryNumberBoundaryParsing s with
      | some parts =>
        rw [tryNumberBoundaryParsing_some hnum, groups_mk_flatten]
        exact groupSplit_flatten digitBrk s.data
      | none =>
        cases hdict : tryDictionaryParsing s with
        | some parts =>
          rw [tryDictionaryParsing_some hdict, mergeSingleChars_flatten]
          simpa using dictLoop_flatten s.data.length s.data [] (le_refl _)
        | none => simp

/-- For a non-empty name, no part of its parse is the empty string. -/
theorem parse_parts_ne_nil (s : String) (hs : s ≠ "") :
    ∀ p ∈ (parseLayerName s).parts, p.data ≠ [] := by
  unfold parseLayerName
  cases hsep : trySeparatorParsing s with
  | some parts =>
    rw [trySeparatorParsing_some hsep]
    exact sepLoop_ne_nil s.data []
  | none =>
    cases hcam : tryCamelCaseParsing s with
    | some parts =>
      rw [tryCamelCaseParsing_some hcam]
      intro p hp
      obtain ⟨g, hg, rfl⟩ := List.mem_map.mp hp
      exact groupSplit_ne_nil camelBrk s.data g hg
    | none =>
      cases hnum : tryNumberBoundaryParsing s with
      | some parts =>
        rw [tryNumberBoundaryParsing_some hnum]
        intro p hp
        obtain ⟨g, hg, rfl⟩ := List.mem_map.mp hp
        exact groupSplit_ne_nil digitBrk s.data g hg
      | none =>
        cases hdict : tryDictionaryParsing s with
        | some parts =>
          rw [tryDictionaryParsing_some hdict]
          exact mergeSingleChars_ne_nil (dictLoop_ne_nil _ _ [] (by simp))
        | none =>
          intro p hp
          obtain rfl := List.mem_singleton.mp hp
          exact fun h => hs ((data_eq_nil_iff p).mp h)

theorem parse_join (s : String) : jsJoin (parseLayerName s).parts = s := by
  unfold jsJoin
  rw [parse_parts_flatten]

/-! Derived render/compose lemmas -/

theorem flatten_replicate_singleton {α : Type} (n : Nat) (a : α) :
    (List.replicate n [a]).flatten = List.replicate n a := by
  induction n with
  | zero => rfl
  | succ n ih => simp [List.replicate_succ, ih]

theorem composeName_padded (parts : List String) (cc : Nat)
    (hne : ∀ p ∈ parts, p.data ≠ []) :
    composeName (padParts parts cc ++ [""]) =
      jsJoin parts ++ spaces (cc - parts.length + 1) := by
  unfold composeName padParts
  have hmap : ((parts ++ List.replicate (cc - parts.length) "") ++ [""]).map renderCell
      = (parts ++ List.replicate (cc - parts.length) " ") ++ [" "] := by
    rw [List.map_append, List.map_append]
    have h1 : parts.map renderCell = parts := by
      have := List.map_congr_left (l := parts) (f := renderCell) (g := id) ?_
      · simpa using this
      · intro p hp
        unfold renderCell
        rw [if_neg]
        · rfl
        · exact fun h => hne p hp ((data_eq_nil_iff p).mpr h ▸ by simp [h])
    have h2 : (List.replicate (cc - parts.length) "").map renderCell
        = List.replicate (cc - parts.length) " " := by
      simp [List.map_replicate, renderCell]
    have h3 : ([""] : List String).map renderCell = [" "] := by
      simp [renderCell]
    rw [h1, h2, h3]
  rw [hmap]
  unfold jsJoin spaces
  rw [List.map_append, List.map_append, List.flatten_append, List.flatten_append]
  have h4 : ((List.replicate (cc - parts.length) (" " : String)).map String.data).flatten
      = List.replicate (cc - parts.length) ' ' := by
    rw [List.map_replicate]
    exact flatten_replicate_singleton _ _
  have h5 : (([" "] : List String).map String.data).flatten = [' '] := rfl
  rw [h4, h5]
  show String.mk _ = String.mk _ ++ String.mk _
  rw [show ∀ (a b : List Char), String.mk a ++ String.mk b = String.mk (a ++ b)
    from fun a b => rfl]
  rw [List.append_assoc]
  rw [← List.replicate_succ' (cc - parts.length) ' ']

theorem le_foldl_max_init (l : List ParsedName) :
    ∀ (init : Nat), init ≤ l.foldl (fun m q => max m q.parts.length) init := by
  induction l with
  | nil => intro init; exact le_refl _
  | cons q t ih =>
    intro init
    exact le_trans (Nat.le_max_left init q.parts.length) (ih (max init q.parts.length))

theorem le_foldl_max (l : List ParsedName) :
    ∀ (init : Nat), ∀ p ∈ l,
      p.parts.length ≤ l.foldl (fun m q => max m q.parts.length) init := by
  induction l with
  | nil => intro init p hp; simp at hp
  | cons q t ih =>
    intro init p hp
    rcases List.mem_cons.mp hp with rfl | hmem
    · exact le_trans (Nat.le_max_right init p.parts.length) (le_foldl_max_init t _)
    · exact ih (max init q.parts.length) p hmem

theorem le_getMaxColumns {parsed : List ParsedName} {p : ParsedName} (hp : p ∈ parsed) :
    p.parts.length ≤ getMaxColumns parsed :=
  le_foldl_max parsed 1 p hp

/-! Stable-sort permutation -/

theorem insertCmp_perm (cmp : LayerInfo → LayerInfo → Cmp) (a : LayerInfo) :
    ∀ (l : List LayerInfo), (insertCmp cmp a l).Perm (a :: l) := by
  intro l
  induction l with
  | nil => exact List.Perm.refl _
  | cons b t ih =>
    unfold insertCmp
    by_cases h : cmp a b ≤ 0
    · rw [if_pos h]
    · rw [if_neg h]
      exact List.Perm.trans (List.Perm.cons b ih) (List.Perm.swap a b t)

theorem sortCmp_perm (cmp : LayerInfo → LayerInfo → Cmp) :
    ∀ (l : List LayerInfo), (sortCmp cmp l).Perm l := by
  intro l
  induction l with
  | nil => exact List.Perm.refl _
  | cons a t ih =>
    exact List.Perm.trans (insertCmp_perm cmp a (sortCmp cmp t)) (List.Perm.cons a ih)

theorem sortLayers_perm (layers : List LayerInfo) (direction : SortDirection) :
    (sortLayersByDirection layers direction).Perm layers :=
  sortCmp_perm _ layers

/-! The getRenames computation -/

theorem renamesGo_eq (rows : List (List String)) :
    ∀ (ids : List String) (i : Nat), ids.length ≤ (rows.drop i).length →
      renamesGo rows i ids =
        some ((ids.zip (rows.drop i)).map fun p => (p.1, composeName p.2)) := by
  intro ids
  induction ids with
  | nil => intro i _; rfl
  | cons nodeId t ih =>
    intro i hlen
    obtain ⟨row, rest, hdrop⟩ : ∃ row rest, rows.drop i = row :: rest := by
      cases hd : rows.drop i with
      | nil => rw [hd] at hlen; simp at hlen
      | cons row rest => exact ⟨row, rest, rfl⟩
    have hget : rows.get? i = some row := by
      have := List.get?_drop rows i 0
      rw [Nat.add_zero, hdrop] at this
      exact this.symm
    have hrest : rows.drop (i + 1) = rest := by
      rw [← List.tail_drop, hdrop]
      rfl
    unfold renamesGo
    rw [hget, ih (i + 1) (by rw [hrest]; rw [hdrop] at hlen; simpa using hlen)]
    rw [hrest, hdrop]
    rfl

/-- C3 (amended): right after `initializeFromLayers` (over layers with
non-empty names), `getRenames` pairs each layer's id with its original
name FOLLOWED BY one space per padding cell plus one space for the extra
blank trailing column — `cc + 1 - parts.length` spaces in total, where
`cc` is the maximum part count — because empty cells render as single
spaces.  It does not reproduce the original name exactly (see
`c3_counterexample`). -/
theorem c3_theorem (layers : List LayerInfo) (direction : SortDirection) (s : Store)
    (hnames : ∀ l ∈ layers, l.name ≠ "") :
    getRenames (initStore layers (some direction) s).grid =
      some ((sortLayersByDirection layers direction).map (fun l =>
        (l.id, l.name ++ spaces (getMaxColumns ((sortLayersByDirection layers direction).map
          (fun l2 => parseLayerName l2.name)) + 1 -
            (parseLayerName l.name).parts.length)))) := by
  have hrows : (initStore layers (some direction) s).grid.rows =
      (sortLayersByDirection layers direction).map (fun l =>
        padParts (parseLayerName l.name).parts
          (getMaxColumns ((sortLayersByDirection layers direction).map
            (fun l2 => parseLayerName l2.name))) ++ [""]) := by
    simp [initStore, List.map_map, Function.comp]
  have hids : (initStore layers (some direction) s).grid.layerIds =
      (sortLayersByDirection layers direction).map (·.id) := rfl
  unfold getRenames
  rw [hrows, hids, renamesGo_eq _ _ 0 (by simp), List.drop_zero, List.zip_map',
    List.map_map]
  refine congrArg some (List.map_congr_left ?_)
  intro l hl
  have hlm : l ∈ layers := (sortLayers_perm layers direction).mem_iff.mp hl
  have hplen : (parseLayerName l.name).parts.length ≤
      getMaxColumns ((sortLayersByDirection layers direction).map
        (fun l2 => parseLayerName l2.name)) :=
    le_getMaxColumns (List.mem_map_of_mem (fun l2 => parseLayerName l2.name) hl)
  show (l.id, composeName (padParts (parseLayerName l.name).parts _ ++ [""])) = _
  rw [composeName_padded _ _ (parse_parts_ne_nil l.name (hnames l hlm)),
    parse_join]
  have : getMaxColumns ((sortLayersByDirection layers direction).map
      (fun l2 => parseLayerName l2.name)) - (parseLayerName l.name).parts.length + 1 =
      getMaxColumns ((sortLayersByDirection layers direction).map
        (fun l2 => parseLayerName l2.name)) + 1 -
        (parseLayerName l.name).parts.length := by
    omega
  rw [this]

/-- C3 witness: the spec's end-to-end two-layer scenario, through
`c3_theorem`; both composed names carry one trailing space from the extra
blank column. -/
theorem c3_witness :
    getRenames storeBtn.grid =
      some [("1", "btn_primary_hover "), ("2", "btn_secondary_hover ")] := by
  have h := c3_theorem [layerBtn1, layerBtn2] .readingOrder initialStore (by decide)
  rw [show storeBtn = initStore [layerBtn1, layerBtn2] (some .readingOrder) initialStore
    from rfl, h]
  decide

/-- C3 counterexample: one layer named `"icon"`; `getRenames` right after
initialization yields `"icon "` (trailing space from the extra blank
column), not the original `"icon"`. -/
theorem c3_counterexample :
    getRenames (initStore [layerIcon] (some .readingOrder) initialStore).grid =
        some [("1", "icon ")] ∧
      (("icon " : String)) ≠ "icon" := by
  decide

/-! ## Claim C8 -/

theorem lastIdxOf_spec :
    ∀ (l : List String) (x : String) (j : Nat), lastIdxOf l x = some j →
      j < l.length ∧ l.get? j = some x := by
  intro l
  induction l with
  | nil => intro x j h; exact absurd h (by simp [lastIdxOf])
  | cons y t ih =>
    intro x j h
    rw [show lastIdxOf (y :: t) x = (match lastIdxOf t x with
        | some j' => some (j' + 1)
        | none => if y = x then some 0 else none) from rfl] at h
    cases hl : lastIdxOf t x with
    | some j' =>
      rw [hl] at h
      have hj : j' + 1 = j := Option.some.inj h
      obtain ⟨h1, h2⟩ := ih x j' hl
      subst hj
      exact ⟨by simpa using h1, by simpa using h2⟩
    | none =>
      rw [hl] at h
      by_cases hyx : y = x
      · rw [if_pos hyx] at h
        have h0 : (0 : Nat) = j := Option.some.inj h
        subst h0
        exact ⟨by simp, by simp [hyx]⟩
      · rw [if_neg hyx] at h
        exact absurd h (by simp)

theorem lastIdxOf_isSome :
    ∀ (l : List String) (x : String), x ∈ l → ∃ j, lastIdxOf l x = some j := by
  intro l
  induction l with
  | nil => intro x hx; simp at hx
  | cons y t ih =>
    intro x hx
    unfold lastIdxOf
    cases hl : lastIdxOf t x with
    | some j => exact ⟨j + 1, rfl⟩
    | none =>
      rcases List.mem_cons.mp hx with rfl | hxt
      · exact ⟨0, by rw [if_pos rfl]⟩
      · obtain ⟨j, hj⟩ := ih x hxt
        rw [hj] at hl
        exact absurd hl (by simp)

theorem lastIdxOf_inj {l : List String} {a b : String} {j : Nat}
    (ha : lastIdxOf l a = some j) (hb : lastIdxOf l b = some j) : a = b := by
  obtain ⟨_, h1⟩ := lastIdxOf_spec l a j ha
  obtain ⟨_, h2⟩ := lastIdxOf_spec l b j hb
  exact Option.some.inj (h1.symm.trans h2)

theorem lastIdxOf_of_get? {l : List String} (hnd : l.Nodup) {j : Nat} {x : String}
    (h : l.get? j = some x) : lastIdxOf l x = some j := by
  obtain ⟨j', hj'⟩ := lastIdxOf_isSome l x (List.get?_mem h)
  obtain ⟨_, hget⟩ := lastIdxOf_spec l x j' hj'
  obtain ⟨hj1, he1⟩ := List.get?_eq_some.mp h
  obtain ⟨hj2, he2⟩ := List.get?_eq_some.mp hget
  have heq : (⟨j, hj1⟩ : Fin l.length) = ⟨j', hj2⟩ :=
    List.nodup_iff_injective_get.mp hnd (by rw [he1, he2])
  have : j = j' := by simpa using congrArg Fin.val heq
  rw [this]
  exact hj'

theorem jsSetOpt_of_lt {α : Type} {l : List (Option α)} {i : Nat} (v : Option α)
    (h : i < l.length) : jsSetOpt l i v = l.set i v := by
  unfold jsSetOpt
  rw [if_pos h]

theorem scatterWrites_cons {α : Type} (w : Nat × Option α) (t : List (Nat × Option α))
    (dest : List (Option α)) :
    scatterWrites (w :: t) dest = scatterWrites t (jsSetOpt dest w.1 w.2) := rfl

theorem scatterWrites_length {α : Type} :
    ∀ (ws : List (Nat × Option α)) (dest : List (Option α)),
      (∀ w ∈ ws, w.1 < dest.length) → (scatterWrites ws dest).length = dest.length := by
  intro ws
  induction ws with
  | nil => intro dest _; rfl
  | cons w t ih =>
    intro dest hlt
    rw [scatterWrites_cons, jsSetOpt_of_lt w.2 (hlt w (List.mem_cons_self w t))]
    rw [ih (dest.set w.1 w.2) (fun w' hw' => by
      rw [List.length_set]; exact hlt w' (List.mem_cons_of_mem w hw'))]
    exact List.length_set dest w.1 w.2

theorem scatterWrites_get_not_mem {α : Type} :
    ∀ (ws : List (Nat × Option α)) (dest : List (Option α)) (j : Nat),
      (∀ w ∈ ws, w.1 < dest.length) → j ∉ ws.map Prod.fst →
      (scatterWrites ws dest).get? j = dest.get? j := by
  intro ws
  induction ws with
  | nil => intro dest j _ _; rfl
  | cons w t ih =>
    intro dest j hlt hj
    have hj1 : w.1 ≠ j := by
      intro he
      exact hj (he ▸ List.mem_map_of_mem Prod.fst (List.mem_cons_self w t))
    have hj2 : j ∉ t.map Prod.fst := by
      intro hm
      exact hj (List.map_cons Prod.fst w t ▸ List.mem_cons_of_mem _ hm)
    rw [scatterWrites_cons, jsSetOpt_of_lt w.2 (hlt w (List.mem_cons_self w t))]
    rw [ih (dest.set w.1 w.2) j (fun w' hw' => by
      rw [List.length_set]; exact hlt w' (List.mem_cons_of_mem w hw')) hj2]
    exact List.get?_set_ne w.2 dest hj1

theorem scatterWrites_get_mem {α : Type} :
    ∀ (ws : List (Nat × Option α)) (dest : List (Option α)) (j : Nat) (v : Option α),
      (∀ w ∈ ws, w.1 < dest.length) → (ws.map Prod.fst).Nodup → (j, v) ∈ ws →
      (scatterWrites ws dest).get? j = some v := by
  intro ws
  induction ws with
  | nil => intro dest j v _ _ hmem; simp at hmem
  | cons w t ih =>
    intro dest j v hlt hnd hmem
    have hwlt : w.1 < dest.length := hlt w (List.mem_cons_self w t)
    rw [scatterWrites_cons]
    rw [List.map_cons] at hnd
    obtain ⟨hnd1, hnd2⟩ := List.nodup_cons.mp hnd
    rcases List.mem_cons.mp hmem with heq | hmem'
    · obtain rfl := heq.symm
      rw [scatterWrites_get_not_mem t _ j (fun w' hw' => by
        rw [jsSetOpt_of_lt v hwlt, List.length_set]
        exact hlt w' (List.mem_cons_of_mem _ hw')) hnd1]
      rw [jsSetOpt_of_lt v hwlt]
      exact List.get?_set_eq_of_lt v hwlt
    · exact ih (jsSetOpt dest w.1 w.2) j v (fun w' hw' => by
        rw [jsSetOpt_of_lt w.2 hwlt, List.length_set]
        exact hlt w' (List.mem_cons_of_mem _ hw')) hnd2 hmem' 

theorem nodup_full_range_mem {idxs : List Nat} {n : Nat} (hnd : idxs.Nodup)
    (hlt : ∀ x ∈ idxs, x < n) (hlen : idxs.length = n) {j : Nat} (hj : j < n) :
    j ∈ idxs := by
  have hsub : idxs.toFinset ⊆ Finset.range n := by
    intro x hx
    exact Finset.mem_range.mpr (hlt x (List.mem_toFinset.mp hx))
  have hcard : idxs.toFinset.card = n := by
    rw [List.toFinset_card_of_nodup hnd, hlen]
  have heq : idxs.toFinset = Finset.range n :=
    Finset.eq_of_subset_of_card_le hsub (by rw [hcard, Finset.card_range])
  exact List.mem_toFinset.mp (heq ▸ Finset.mem_range.mpr hj)

theorem unopt_spec {α : Type} :
    ∀ (l : List (Option α)), (∀ x ∈ l, x ≠ none) →
      ∃ l', unopt l = some l' ∧ l'.length = l.length ∧
        (∀ (j : Nat) (a : α), l.get? j = some (some a) → l'.get? j = some a) := by
  intro l
  induction l with
  | nil => intro _; exact ⟨[], rfl, rfl, by intro j a h; simp at h⟩
  | cons x t ih =>
    intro h
    obtain ⟨a, rfl⟩ : ∃ a, x = some a := by
      cases x with
      | none => exact absurd rfl (h none (List.mem_cons_self none t))
      | some a => exact ⟨a, rfl⟩
    obtain ⟨t', ht1, ht2, ht3⟩ := ih (fun y hy => h y (List.mem_cons_of_mem _ hy))
    refine ⟨a :: t', ?_, by simp [ht2], ?_⟩
    · unfold unopt
      rw [ht1]
      rfl
    · intro j b hb
      cases j with
      | zero =>
        have : some a = some b := by simpa using hb
        obtain rfl := Option.some.inj this
        rfl
      | succ j =>
        have : t.get? j = some (some b) := by simpa using hb
        simpa using ht3 j b this

theorem reorderScatter_eq {α : Type} (idxOf : String → Option Nat) (ids : List String)
    (vals : Nat → Option α) (n : Nat) :
    reorderScatter idxOf ids vals n =
      scatterWrites
        (ids.enum.filterMap (fun p => (idxOf p.2).map (fun ni => (ni, vals p.1))))
        (List.replicate n none) := by
  unfold reorderScatter scatterWrites
  generalize (List.replicate n (none : Option α)) = init
  generalize ids.enum = l
  induction l generalizing init with
  | nil => rfl
  | cons p t ih =>
    rw [List.foldl_cons, List.filterMap_cons]
    cases hp : idxOf p.2 with
    | none =>
      simp only [hp, Option.map_none']
      exact ih _
    | some ni =>
      simp only [hp, Option.map_some']
      rw [List.foldl_cons]
      exact ih _

theorem writes_lt {α : Type} (sortedIds ids : List String) (vals : Nat → Option α) :
    ∀ w ∈ ids.enum.filterMap (fun p => (lastIdxOf sortedIds p.2).map
        (fun ni => (ni, vals p.1))), w.1 < sortedIds.length := by
  intro w hw
  obtain ⟨p, _, hf⟩ := List.mem_filterMap.mp hw
  obtain ⟨j, hj1, hj2⟩ := Option.map_eq_some'.mp hf
  rw [← hj2]
  exact (lastIdxOf_spec sortedIds p.2 j hj1).1

theorem writes_fst_nodup {α : Type} (sortedIds ids : List String)
    (vals : Nat → Option α) (hnd : ids.Nodup) :
    ((ids.enum.filterMap (fun p => (lastIdxOf sortedIds p.2).map
      (fun ni => (ni, vals p.1)))).map Prod.fst).Nodup := by
  suffices h : ∀ (l : List (Nat × String)), (l.map Prod.snd).Nodup →
      ((l.filterMap (fun p => (lastIdxOf sortedIds p.2).map
        (fun ni => (ni, vals p.1)))).map Prod.fst).Nodup by
    refine h ids.enum ?_
    rw [List.enum_map_snd]
    exact hnd
  intro l
  induction l with
  | nil => intro _; simp
  | cons p t ih =>
    intro hsnd
    rw [List.map_cons] at hsnd
    obtain ⟨hhead, htail⟩ := List.nodup_cons.mp hsnd
    rw [List.filterMap_cons]
    cases hp : lastIdxOf sortedIds p.2 with
    | none =>
      simp only [Option.map_none']
      exact ih htail
    | some j =>
      simp only [Option.map_some']
      rw [List.map_cons]
      refine List.nodup_cons.mpr ⟨?_, ih htail⟩
      intro hjmem
      obtain ⟨w, hw, hwfst⟩ := List.mem_map.mp hjmem
      obtain ⟨q, hq, hf⟩ := List.mem_filterMap.mp hw
      obtain ⟨j', hj'1, hj'2⟩ := Option.map_eq_some'.mp hf
      have hwj : w.1 = j' := by rw [← hj'2]
      have hj'1' : lastIdxOf sortedIds q.2 = some j := by
        rw [hj'1, ← hwj, hwfst]
      have hq2 : q.2 = p.2 := lastIdxOf_inj hj'1' hp
      exact hhead (hq2 ▸ List.mem_map_of_mem Prod.snd hq)

theorem filterMap_length_all_some {σ τ : Type} (f : σ → Option τ) :
    ∀ (l : List σ), (∀ x ∈ l, (f x).isSome) → (l.filterMap f).length = l.length := by
  intro l
  induction l with
  | nil => intro _; rfl
  | cons a t ih =>
    intro h
    rw [List.filterMap_cons]
    cases hf : f a with
    | none =>
      have := h a (List.mem_cons_self a t)
      rw [hf] at this
      exact absurd this (by simp)
    | some b =>
      simp only [List.length_cons]
      rw [ih (fun x hx => h x (List.mem_cons_of_mem _ hx))]

theorem writes_mem {α : Type} (sortedIds ids : List String) (vals : Nat → Option α)
    {o : Nat} {x : String} {j : Nat}
    (ho : ids.get? o = some x) (hj : lastIdxOf sortedIds x = some j) :
    (j, vals o) ∈ ids.enum.filterMap (fun p => (lastIdxOf sortedIds p.2).map
      (fun ni => (ni, vals p.1))) := by
  refine List.mem_filterMap.mpr ⟨(o, x), ?_, ?_⟩
  · exact List.mem_enum_iff_get?.mpr (by simpa using ho)
  · simp [hj]

theorem reorderScatter_good {α : Type} (sortedIds ids : List String)
    (vals : Nat → Option α) (n : Nat)
    (hnd : ids.Nodup) (hsl : sortedIds.length = n) (hil : ids.length = n)
    (hmem : ∀ x ∈ ids, x ∈ sortedIds)
    (hvals : ∀ o, o < n → (vals o).isSome) :
    (∀ y ∈ reorderScatter (fun id => lastIdxOf sortedIds id) ids vals n, y ≠ none) ∧
      (reorderScatter (fun id => lastIdxOf sortedIds id) ids vals n).length = n ∧
      (∀ (o : Nat) (x : String) (j : Nat), ids.get? o = some x →
        lastIdxOf sortedIds x = some j →
        (reorderScatter (fun id => lastIdxOf sortedIds id) ids vals n).get? j =
          some (vals o)) := by
  have hWlt : ∀ w ∈ ids.enum.filterMap (fun p => (lastIdxOf sortedIds p.2).map
      (fun ni => (ni, vals p.1))), w.1 < (List.replicate n (none : Option α)).length := by
    intro w hw
    rw [List.length_replicate, ← hsl]
    exact writes_lt sortedIds ids vals w hw
  have hWnd := writes_fst_nodup sortedIds ids vals hnd
  have heq := reorderScatter_eq (fun id => lastIdxOf sortedIds id) ids vals n
  have hlen : (reorderScatter (fun id => lastIdxOf sortedIds id) ids vals n).length
      = n := by
    rw [heq, scatterWrites_length _ _ hWlt, List.length_replicate]
  have hWsome : ∀ p ∈ ids.enum, ((lastIdxOf sortedIds p.2).map
      (fun ni => (ni, vals p.1))).isSome := by
    intro p hp
    have hp2 : p.2 ∈ ids := by
      have := List.mem_map_of_mem Prod.snd hp
      rwa [List.enum_map_snd] at this
    obtain ⟨j, hj⟩ := lastIdxOf_isSome sortedIds p.2 (hmem p.2 hp2)
    simp [hj]
  have hWlen : (ids.enum.filterMap (fun p => (lastIdxOf sortedIds p.2).map
      (fun ni => (ni, vals p.1)))).length = n := by
    rw [filterMap_length_all_some _ _ hWsome, List.enum_length, hil]
  refine ⟨?_, hlen, ?_⟩
  · intro y hy
    obtain ⟨j, hjget⟩ := List.mem_iff_get?.mp hy
    have hjlt : j < n := by
      obtain ⟨hlt, -⟩ := List.get?_eq_some.mp hjget
      rwa [hlen] at hlt
    have hjin : j ∈ (ids.enum.filterMap (fun p => (lastIdxOf sortedIds p.2).map
        (fun ni => (ni, vals p.1)))).map Prod.fst := by
      refine nodup_full_range_mem hWnd ?_ ?_ hjlt
      · intro x hx
        obtain ⟨w, hw, rfl⟩ := List.mem_map.mp hx
        have := writes_lt sortedIds ids vals w hw
        omega
      · rw [List.length_map, hWlen]
    obtain ⟨w, hwW, hwfst⟩ := List.mem_map.mp hjin
    have hget2 : (reorderScatter (fun id => lastIdxOf sortedIds id) ids vals n).get? j
        = some w.2 := by
      rw [heq]
      refine scatterWrites_get_mem _ _ j w.2 hWlt hWnd ?_
      rw [show ((j : Nat), w.2) = w from by rw [← hwfst]]
      exact hwW
    have hyw : y = w.2 := by
      rw [hjget] at hget2
      exact Option.some.inj hget2
    obtain ⟨p, hp, hf⟩ := List.mem_filterMap.mp hwW
    obtain ⟨j', -, hj'2⟩ := Option.map_eq_some'.mp hf
    have hw2 : w.2 = vals p.1 := by rw [← hj'2]
    have hpo : p.1 < n := by
      have := List.mem_enum_iff_get?.mp hp
      obtain ⟨hlt, -⟩ := List.get?_eq_some.mp this
      omega
    have := hvals p.1 hpo
    rw [hyw, hw2]
    intro hcon
    rw [hcon] at this
    simp at this
  · intro o x j ho hj
    rw [heq]
    exact scatterWrites_get_mem _ _ j (vals o) hWlt hWnd
      (writes_mem sortedIds ids vals ho hj)

theorem jsSetStr_get? (row : List String) (c : Nat) (v : String) :
    (jsSetStr row c v).get? c = some v := by
  unfold jsSetStr
  by_cases h : c < row.length
  · rw [if_pos h]
    exact List.get?_set_eq_of_lt v h
  · rw [if_neg h]
    have hlen : (row ++ List.replicate (c - row.length) "").length = c := by
      simp only [List.length_append, List.length_replicate]
      omega
    rw [show row ++ List.replicate (c - row.length) "" ++ [v]
        = (row ++ List.replicate (c - row.length) "") ++ [v] from by
      rw [List.append_assoc]]
    rw [List.get?_append_right (by omega), hlen]
    simp

theorem reorderStore_some (layers : List LayerInfo) (direction : SortDirection)
    (s : Store) (hnd : s.grid.layerIds.Nodup)
    (hrows : s.grid.rows.length = s.grid.layerIds.length)
    (htypes : s.grid.layerTypes.length = s.grid.layerIds.length)
    (hperm : ((sortLayersByDirection layers direction).map (fun l => l.id)).Perm
      s.grid.layerIds) :
    ∃ s2, reorderStore layers direction s = some s2 ∧
      s2.grid.columns = s.grid.columns ∧
      (∀ (o : Nat) (x : String), s.grid.layerIds.get? o = some x →
        ∃ j, s2.grid.layerIds.get? j = some x ∧
          s2.grid.rows.get? j = s.grid.rows.get? o) := by
  have hmemids : ∀ x ∈ s.grid.layerIds,
      x ∈ (sortLayersByDirection layers direction).map (fun l => l.id) :=
    fun x hx => hperm.mem_iff.mpr hx
  have hsl := hperm.length_eq
  have goodR := reorderScatter_good
    ((sortLayersByDirection layers direction).map (fun l => l.id)) s.grid.layerIds
    (fun o => s.grid.rows.get? o) s.grid.rows.length hnd (hsl.trans hrows.symm)
    hrows.symm hmemids
    (fun o ho => by
      show (s.grid.rows.get? o).isSome = true
      rw [List.get?_eq_get ho]; rfl)
  have goodI := reorderScatter_good
    ((sortLayersByDirection layers direction).map (fun l => l.id)) s.grid.layerIds
    (fun o => s.grid.layerIds.get? o) s.grid.layerIds.length hnd hsl rfl hmemids
    (fun o ho => by
      show (s.grid.layerIds.get? o).isSome = true
      rw [List.get?_eq_get ho]; rfl)
  have goodT := reorderScatter_good
    ((sortLayersByDirection layers direction).map (fun l => l.id)) s.grid.layerIds
    (fun o => s.grid.layerTypes.get? o) s.grid.layerTypes.length hnd
    (hsl.trans htypes.symm) htypes.symm hmemids
    (fun o ho => by
      show (s.grid.layerTypes.get? o).isSome = true
      rw [List.get?_eq_get ho]; rfl)
  obtain ⟨rows2, hR1, _, hR3⟩ := unopt_spec _ goodR.1
  obtain ⟨ids2, hI1, _, hI3⟩ := unopt_spec _ goodI.1
  obtain ⟨types2, hT1, _, hT3⟩ := unopt_spec _ goodT.1
  refine ⟨⟨⟨s.grid.columns, rows2, ids2, types2, direction⟩,
    s.history, s.future, s.cnt⟩, ?_, rfl, ?_⟩
  · simp only [reorderStore]
    rw [hR1, hI1, hT1]
  · intro o x ho
    have hxmem : x ∈ (sortLayersByDirection layers direction).map (fun l => l.id) :=
      hmemids x (List.get?_mem ho)
    obtain ⟨j, hj⟩ := lastIdxOf_isSome _ x hxmem
    refine ⟨j, ?_, ?_⟩
    · have hslot := goodI.2.2 o x j ho hj
      simp only [] at hslot
      rw [ho] at hslot
      exact hI3 j x hslot
    · have hslot := goodR.2.2 o x j ho hj
      simp only [] at hslot
      have holt : o < s.grid.rows.length := by
        obtain ⟨hlt, -⟩ := List.get?_eq_some.mp ho
        omega
      obtain ⟨row, hrow⟩ : ∃ row, s.grid.rows.get? o = some row :=
        ⟨_, List.get?_eq_get holt⟩
      rw [hrow] at hslot ⊢
      exact hR3 j row hslot

/-- C8: after `setCellValue(r, c, v)` followed by `reorderByDirection` over
the same layer set (the reordered layer ids are a permutation of the
grid's, which are distinct), the whole edited row — and in particular the
value `v` at column `c` — is still associated with the layer id that was at
row `r`, at some (possibly different) row index `j`. -/
theorem c8_theorem (s : Store) (layers : List LayerInfo) (direction : SortDirection)
    (r c : Nat) (v : String) (row : List String) (id : String)
    (hnd : s.grid.layerIds.Nodup)
    (hrows : s.grid.rows.length = s.grid.layerIds.length)
    (htypes : s.grid.layerTypes.length = s.grid.layerIds.length)
    (hperm : ((sortLayersByDirection layers direction).map (fun l => l.id)).Perm
      s.grid.layerIds)
    (hrow : s.grid.rows.get? r = some row)
    (hid : s.grid.layerIds.get? r = some id) :
    ∃ s1 s2 j,
      setCellStore r c v s = some s1 ∧
      reorderStore layers direction s1 = some s2 ∧
      s2.grid.layerIds.get? j = some id ∧
      s2.grid.rows.get? j = some (jsSetStr row c v) ∧
      (jsSetStr row c v).get? c = some v := by
  have hr : r < s.grid.rows.length := by
    obtain ⟨hlt, -⟩ := List.get?_eq_some.mp hrow
    exact hlt
  have hs1 : setCellStore r c v s = some { s with
      grid := { s.grid with rows := s.grid.rows.set r (jsSetStr row c v) },
      history := pushHistory s.history s.grid, future := [] } := by
    unfold setCellStore
    rw [hrow]
  obtain ⟨s2, hre, -, hmap⟩ := reorderStore_some layers direction
    { s with
      grid := { s.grid with rows := s.grid.rows.set r (jsSetStr row c v) },
      history := pushHistory s.history s.grid, future := [] }
    hnd (by simpa using hrows) htypes hperm
  obtain ⟨j, hj1, hj2⟩ := hmap r id hid
  have hrow1 : (s.grid.rows.set r (jsSetStr row c v)).get? r
      = some (jsSetStr row c v) := List.get?_set_eq_of_lt _ hr
  refine ⟨_, s2, j, hs1, hre, hj1, ?_, jsSetStr_get? row c v⟩
  rw [hj2]
  exact hrow1

/-- C8 witness: the two `btn_…` layers, editing cell (0,2) and reordering
bottom-to-top, through `c8_theorem`.  (The edited row ends up at index 1,
still attached to layer id `"1"`.) -/
theorem c8_witness :
    ∃ s1 s2 j,
      setCellStore 0 2 "PRIMARY" storeBtn = some s1 ∧
      reorderStore [layerBtn1, layerBtn2] .bottomToTop s1 = some s2 ∧
      s2.grid.layerIds.get? j = some "1" ∧
      s2.grid.rows.get? j =
        some (jsSetStr ["btn", "_", "primary", "_", "hover", ""] 2 "PRIMARY") ∧
      (jsSetStr ["btn", "_", "primary", "_", "hover", ""] 2 "PRIMARY").get? 2 =
        some "PRIMARY" :=
  c8_theorem storeBtn [layerBtn1, layerBtn2] .bottomToTop 0 2 "PRIMARY"
    ["btn", "_", "primary", "_", "hover", ""] "1" (by decide) (by decide) (by decide)
    (by decide) (by decide) (by decide)

end NameIt
